import Mathlib

/-!
Verification of the stormindexer catalog engine.

This file shallowly embeds the core of the repository:

* the SQLite-backed catalog store (`internal/database/database.go`):
  `UpsertFile`, `DeleteFile`, `ListFiles`, and the glob-to-LIKE translation
  `convertPatternToLike` used by `DB.FindFiles`;
* the differ and duplicate finder (`internal/sync/sync.go`):
  `CompareIndexes`, `FindDuplicates`;
* the scanner and reconciler (`internal/indexer/indexer.go`):
  `Index`, `Reindex`, including the hidden-name filtering performed inside
  the `filepath.Walk` callbacks.

Go `time.Time` values are embedded as a pair of (seconds, nanoseconds); the
code only ever compares them through `Time.Unix()`, which is the seconds
field.  Machine integers (`int64` sizes) are embedded as `Int`: the code
performs no arithmetic on them that could overflow, only comparisons.
Fallible store operations are driven by explicit failure oracles
(`String → Bool`, keyed by the path being written), and operations that can
abort return `Except String _` carrying the offending path.
-/

/-- Embedding of Go `time.Time` for this codebase: the code compares times
only via `Time.Unix()` (whole seconds); the store persists the full value.
`sec` is the value of `Unix()`; `nsec` is the sub-second part, carried but
never consulted by any comparison in the embedded code. -/
structure GoTime where
  sec : Int
  nsec : Int
deriving DecidableEq, Repr

/-- Embedding of `models.FileEntry` (internal/models/file.go) as stored in the
`files` table: `id` is the AUTOINCREMENT row identity, the remaining fields
are the struct/table columns.  `lastScanned` is an abstract wall-clock tick
(never compared by the embedded code). -/
structure FileEntry where
  id : Nat
  path : String
  relativePath : String
  size : Int
  modTime : GoTime
  checksum : String
  indexID : String
  lastScanned : Nat
  isDirectory : Bool
deriving DecidableEq, Repr

/-- Embedding of `models.Index` restricted to the columns the embedded
operations read (`id` for `ListIndexes`/`ListFiles`, `name`/`rootPath` for
display and sync).  `created_at`, `machine_id` and the cached aggregates are
never read by the operations under verification; the `ORDER BY created_at
DESC` of `ListIndexes` is represented by the list order of `Store.indexes`. -/
structure IndexRec where
  id : String
  name : String
  rootPath : String
deriving DecidableEq, Repr

/-- The catalog store: the `indexes` and `files` tables plus the AUTOINCREMENT
counter for `files.id`. -/
structure Store where
  indexes : List IndexRec
  rows : List FileEntry
  nextId : Nat
deriving DecidableEq, Repr

/-- Store wellformedness: the schema's `UNIQUE(path, index_id)` constraint on
the `files` table. -/
def Store.WF (st : Store) : Prop :=
  st.rows.Pairwise (fun a b => a.path ≠ b.path ∨ a.indexID ≠ b.indexID)

/-- Embedding of `DB.UpsertFile` (database.go:199-215):
`INSERT ... ON CONFLICT(path, index_id) DO UPDATE SET size, mod_time,
checksum, last_scanned, is_directory = excluded...`.  On conflict the row
keeps its `id` and `relative_path`; otherwise a fresh row is appended with
the next AUTOINCREMENT id.  The given entry's `id` field is ignored, as the
SQL never mentions it. -/
def Store.upsertFile (st : Store) (f : FileEntry) : Store :=
  if st.rows.any (fun r => r.path == f.path && r.indexID == f.indexID) then
    { st with rows := st.rows.map (fun r =>
        if r.path == f.path && r.indexID == f.indexID then
          { r with size := f.size, modTime := f.modTime, checksum := f.checksum,
                   lastScanned := f.lastScanned, isDirectory := f.isDirectory }
        else r) }
  else
    { st with rows := st.rows ++ [{ f with id := st.nextId }],
              nextId := st.nextId + 1 }

/-- Embedding of `DB.DeleteFile` (database.go:275-279):
`DELETE FROM files WHERE path = ? AND index_id = ?`. -/
def Store.deleteFile (st : Store) (p indexID : String) : Store :=
  { st with rows := st.rows.filter (fun r => !(r.path == p && r.indexID == indexID)) }

/-- Lexicographic order on character lists: SQLite compares TEXT with the
BINARY collation (byte order), which on UTF-8 agrees with code-point order. -/
def charListLe : List Char → List Char → Bool
  | [], _ => true
  | _ :: _, [] => false
  | a :: as, b :: bs => if a = b then charListLe as bs else decide (a < b)

/-- The `ORDER BY path` comparison of `ListFiles`. -/
def pathLe (a b : String) : Bool :=
  charListLe a.toList b.toList

/-- Insertion step for the `ORDER BY path` of `ListFiles`. -/
def insertByPath (f : FileEntry) : List FileEntry → List FileEntry
  | [] => [f]
  | g :: gs => if pathLe f.path g.path then f :: g :: gs else g :: insertByPath f gs

/-- Sorting by `path` (insertion sort).  `ListFiles` orders rows with
`ORDER BY path`; with the `UNIQUE(path, index_id)` constraint the paths of
one catalog are distinct, so any sort realises the same, unique order. -/
def sortByPath : List FileEntry → List FileEntry
  | [] => []
  | f :: fs => insertByPath f (sortByPath fs)

/-- Embedding of `DB.ListFiles` (database.go:241-272):
`SELECT ... FROM files WHERE index_id = ? ORDER BY path`. -/
def listFiles (st : Store) (indexID : String) : List FileEntry :=
  sortByPath (st.rows.filter (fun r => r.indexID == indexID))

/-- Last-assignment-wins lookup: embedding of a Go map built by iterating a
slice and assigning `m[key f] = f` for each element (a later element with the
same key overwrites an earlier one). -/
def lastBy (key : FileEntry → String) (k : String) : List FileEntry → Option FileEntry
  | [] => none
  | f :: fs =>
    match lastBy key k fs with
    | some g => some g
    | none => if key f == k then some f else none

theorem insertByPath_perm (f : FileEntry) (l : List FileEntry) :
    (insertByPath f l).Perm (f :: l) := by
  induction l with
  | nil => simp [insertByPath]
  | cons g gs ih =>
    by_cases h : pathLe f.path g.path
    · simp [insertByPath, h]
    · simp only [insertByPath, if_neg h]
      exact ((ih.cons g).trans (List.Perm.swap f g gs))

theorem sortByPath_perm (l : List FileEntry) : (sortByPath l).Perm l := by
  induction l with
  | nil => simp [sortByPath]
  | cons f fs ih =>
    exact (insertByPath_perm f (sortByPath fs)).trans (ih.cons f)

theorem mem_sortByPath {g : FileEntry} {l : List FileEntry} :
    g ∈ sortByPath l ↔ g ∈ l :=
  (sortByPath_perm l).mem_iff

theorem mem_listFiles {r : FileEntry} {st : Store} {indexID : String} :
    r ∈ listFiles st indexID ↔ r ∈ st.rows ∧ r.indexID = indexID := by
  simp [listFiles, mem_sortByPath, List.mem_filter]

theorem lastBy_eq_some {key : FileEntry → String} {k : String} {l : List FileEntry}
    {f : FileEntry} (h : lastBy key k l = some f) : f ∈ l ∧ key f = k := by
  induction l with
  | nil => simp [lastBy] at h
  | cons g gs ih =>
    simp only [lastBy] at h
    cases hg : lastBy key k gs with
    | some x =>
      rw [hg] at h
      obtain ⟨hmem, hkey⟩ := ih (hg.trans (congrArg some (Option.some.inj h)))
      exact ⟨List.mem_cons_of_mem g hmem, hkey⟩
    | none =>
      rw [hg] at h
      by_cases hk : key g == k
      · simp [hk] at h
        subst h
        exact ⟨List.mem_cons_self g gs, by simpa using hk⟩
      · simp [hk] at h

theorem lastBy_eq_none {key : FileEntry → String} {k : String} {l : List FileEntry} :
    lastBy key k l = none ↔ ∀ f ∈ l, key f ≠ k := by
  induction l with
  | nil => simp [lastBy]
  | cons g gs ih =>
    simp only [lastBy]
    cases hg : lastBy key k gs with
    | some x =>
      simp only [reduceCtorEq, false_iff]
      intro hall
      have := (ih.mpr (fun f hf => hall f (List.mem_cons_of_mem g hf)))
      rw [hg] at this
      exact Option.noConfusion this
    | none =>
      have hall := ih.mp hg
      by_cases hk : key g = k
      · simp [hk]
      · simp only [beq_iff_eq, if_neg hk, List.mem_cons]
        constructor
        · intro _ f hf
          rcases hf with rfl | hf
          · exact hk
          · exact hall f hf
        · intro _
          trivial

/-- Rows whose key differs from the upserted key are untouched. -/
theorem upsertFile_mem_other {st : Store} {f r : FileEntry}
    (h : ¬(r.path = f.path ∧ r.indexID = f.indexID)) :
    r ∈ (st.upsertFile f).rows ↔ r ∈ st.rows := by
  unfold Store.upsertFile
  by_cases hc : st.rows.any (fun x => x.path == f.path && x.indexID == f.indexID)
  · simp only [if_pos hc]
    constructor
    · intro hr
      obtain ⟨x, hx, hxr⟩ := List.mem_map.mp hr
      by_cases hk : x.path == f.path && x.indexID == f.indexID
      · rw [if_pos hk] at hxr
        exfalso
        apply h
        rw [← hxr]
        simpa using hk
      · rw [if_neg hk] at hxr
        rw [← hxr]
        exact hx
    · intro hr
      have hk : (r.path == f.path && r.indexID == f.indexID) = false := by
        rcases Classical.em (r.path = f.path) with hp | hp
        · rcases Classical.em (r.indexID = f.indexID) with hi | hi
          · exact absurd ⟨hp, hi⟩ h
          · simp [hi]
        · simp [hp]
      have : r ∈ st.rows.map (fun x =>
          if x.path == f.path && x.indexID == f.indexID then
            { x with size := f.size, modTime := f.modTime, checksum := f.checksum,
                     lastScanned := f.lastScanned, isDirectory := f.isDirectory }
          else x) := by
        refine List.mem_map.mpr ⟨r, hr, ?_⟩
        rw [hk]
        simp
      exact this
  · simp only [if_neg hc, List.mem_append, List.mem_singleton]
    constructor
    · intro hr
      rcases hr with hr | hr
      · exact hr
      · exfalso
        apply h
        rw [hr]
        exact ⟨rfl, rfl⟩
    · intro hr
      exact Or.inl hr

/-- Upserting an existing key rewrites each matching row in place, keeping its
`id` and `relative_path` (the SQL UPDATE clause never touches them). -/
theorem upsertFile_key_overwrite {st : Store} {f r : FileEntry}
    (hr : r ∈ st.rows) (hp : r.path = f.path) (hi : r.indexID = f.indexID) :
    { r with size := f.size, modTime := f.modTime, checksum := f.checksum,
             lastScanned := f.lastScanned, isDirectory := f.isDirectory }
      ∈ (st.upsertFile f).rows := by
  have hc : st.rows.any (fun x => x.path == f.path && x.indexID == f.indexID) := by
    rw [List.any_eq_true]
    exact ⟨r, hr, by simp [hp, hi]⟩
  unfold Store.upsertFile
  rw [if_pos hc]
  refine List.mem_map.mpr ⟨r, hr, ?_⟩
  have hk : (r.path == f.path && r.indexID == f.indexID) = true := by simp [hp, hi]
  rw [hk]
  simp

/-- When the key is absent the upsert appends a fresh row carrying the next
AUTOINCREMENT id. -/
theorem upsertFile_insert {st : Store} {f : FileEntry}
    (h : ∀ r ∈ st.rows, ¬(r.path = f.path ∧ r.indexID = f.indexID)) :
    (st.upsertFile f).rows = st.rows ++ [{ f with id := st.nextId }] := by
  have hc : (st.rows.any (fun x => x.path == f.path && x.indexID == f.indexID)) = false := by
    rw [Bool.eq_false_iff]
    intro hany
    obtain ⟨x, hx, hk⟩ := List.any_eq_true.mp hany
    have hkk := (Bool.and_eq_true _ _).mp hk
    exact h x hx ⟨beq_iff_eq.mp hkk.1, beq_iff_eq.mp hkk.2⟩
  unfold Store.upsertFile
  rw [hc]
  simp

/-- After an upsert a row with the upserted key is present. -/
theorem upsertFile_key_mem (st : Store) (f : FileEntry) :
    ∃ r ∈ (st.upsertFile f).rows, r.path = f.path ∧ r.indexID = f.indexID := by
  by_cases hc : st.rows.any (fun x => x.path == f.path && x.indexID == f.indexID)
  · obtain ⟨x, hx, hk⟩ := List.any_eq_true.mp hc
    have hkk := (Bool.and_eq_true _ _).mp hk
    have hp := beq_iff_eq.mp hkk.1
    have hi := beq_iff_eq.mp hkk.2
    exact ⟨_, upsertFile_key_overwrite hx hp hi, hp, hi⟩
  · have hall : ∀ r ∈ st.rows, ¬(r.path = f.path ∧ r.indexID = f.indexID) := by
      intro r hr hk
      apply hc
      rw [List.any_eq_true]
      exact ⟨r, hr, by simp [hk.1, hk.2]⟩
    have hins := upsertFile_insert hall
    have hrow : ({ f with id := st.nextId } : FileEntry) ∈ (st.upsertFile f).rows := by
      rw [hins]
      simp
    exact ⟨_, hrow, rfl, rfl⟩

/-- Every row carrying the upserted key after an upsert holds the upserted
mutable columns (size, modification time, checksum, last-scanned,
directory flag). -/
theorem upsertFile_key_vals {st : Store} {f r : FileEntry}
    (hr : r ∈ (st.upsertFile f).rows) (hp : r.path = f.path) (hi : r.indexID = f.indexID) :
    r.size = f.size ∧ r.modTime = f.modTime ∧ r.checksum = f.checksum ∧
      r.lastScanned = f.lastScanned ∧ r.isDirectory = f.isDirectory := by
  unfold Store.upsertFile at hr
  by_cases hc : st.rows.any (fun x => x.path == f.path && x.indexID == f.indexID)
  · rw [if_pos hc] at hr
    obtain ⟨x, hx, hxr⟩ := List.mem_map.mp hr
    by_cases hk : x.path == f.path && x.indexID == f.indexID
    · rw [if_pos hk] at hxr
      rw [← hxr]
      exact ⟨rfl, rfl, rfl, rfl, rfl⟩
    · rw [if_neg hk] at hxr
      exfalso
      apply hk
      rw [hxr]
      simp [hp, hi]
  · rw [if_neg hc] at hr
    simp only [List.mem_append, List.mem_singleton] at hr
    rcases hr with hr | hr
    · exfalso
      rw [List.any_eq_true] at hc
      exact hc ⟨r, hr, by simp [hp, hi]⟩
    · rw [hr]
      exact ⟨rfl, rfl, rfl, rfl, rfl⟩

/-- Conversely, every row carrying the key after an upsert into a store that
already had the key is the in-place rewrite of a prior row with that key. -/
theorem upsertFile_key_src {st : Store} {f r2 : FileEntry}
    (hex : ∃ r ∈ st.rows, r.path = f.path ∧ r.indexID = f.indexID)
    (hr2 : r2 ∈ (st.upsertFile f).rows) (hp : r2.path = f.path) (hi : r2.indexID = f.indexID) :
    ∃ r ∈ st.rows, r.path = f.path ∧ r.indexID = f.indexID ∧
      r2 = { r with size := f.size, modTime := f.modTime, checksum := f.checksum,
                    lastScanned := f.lastScanned, isDirectory := f.isDirectory } := by
  obtain ⟨e, he, hep, hei⟩ := hex
  have hc : st.rows.any (fun x => x.path == f.path && x.indexID == f.indexID) := by
    rw [List.any_eq_true]
    exact ⟨e, he, by simp [hep, hei]⟩
  unfold Store.upsertFile at hr2
  rw [if_pos hc] at hr2
  obtain ⟨x, hx, hxr⟩ := List.mem_map.mp hr2
  by_cases hk : x.path == f.path && x.indexID == f.indexID
  · rw [if_pos hk] at hxr
    have hkk := (Bool.and_eq_true _ _).mp hk
    exact ⟨x, hx, beq_iff_eq.mp hkk.1, beq_iff_eq.mp hkk.2, hxr.symm⟩
  · rw [if_neg hk] at hxr
    exfalso
    apply hk
    rw [hxr]
    simp [hp, hi]

/-- Membership after `DeleteFile`. -/
theorem deleteFile_mem {st : Store} {p indexID : String} {r : FileEntry} :
    r ∈ (st.deleteFile p indexID).rows ↔
      r ∈ st.rows ∧ ¬(r.path = p ∧ r.indexID = indexID) := by
  unfold Store.deleteFile
  simp only [List.mem_filter]
  constructor
  · rintro ⟨hr, hb⟩
    refine ⟨hr, ?_⟩
    rintro ⟨hp, hi⟩
    simp [hp, hi] at hb
  · rintro ⟨hr, hb⟩
    refine ⟨hr, ?_⟩
    rcases Classical.em (r.path = p) with hp | hp
    · rcases Classical.em (r.indexID = indexID) with hi | hi
      · exact absurd ⟨hp, hi⟩ hb
      · simp [hi]
    · simp [hp]

/-- In a key-pairwise-distinct list two elements with the same key are the
same element. -/
theorem pairwise_key_unique {l : List FileEntry}
    (hl : l.Pairwise (fun a b => a.path ≠ b.path ∨ a.indexID ≠ b.indexID))
    {r e : FileEntry} (hr : r ∈ l) (he : e ∈ l)
    (hp : r.path = e.path) (hi : r.indexID = e.indexID) : r = e := by
  induction l with
  | nil => cases hr
  | cons x xs ih =>
    have hx := List.pairwise_cons.mp hl
    rcases List.mem_cons.mp hr with rfl | hr2
    · rcases List.mem_cons.mp he with rfl | he2
      · rfl
      · rcases hx.1 e he2 with h | h
        · exact absurd hp h
        · exact absurd hi h
    · rcases List.mem_cons.mp he with rfl | he2
      · rcases hx.1 r hr2 with h | h
        · exact absurd hp.symm h
        · exact absurd hi.symm h
      · exact ih hx.2 hr2 he2

/-- Under the `UNIQUE(path, index_id)` constraint two rows with the same key
are the same row. -/
theorem WF_key_unique {st : Store} (hWF : st.WF) {r e : FileEntry}
    (hr : r ∈ st.rows) (he : e ∈ st.rows)
    (hp : r.path = e.path) (hi : r.indexID = e.indexID) : r = e :=
  pairwise_key_unique hWF hr he hp hi

/-- `UpsertFile` preserves the key-uniqueness invariant: an update rewrites
rows in place without changing keys, an insert appends a key that was
absent. -/
theorem upsertFile_WF {st : Store} (hWF : st.WF) (f : FileEntry) :
    (st.upsertFile f).WF := by
  unfold Store.WF at hWF ⊢
  unfold Store.upsertFile
  by_cases hc : st.rows.any (fun r => r.path == f.path && r.indexID == f.indexID)
  · rw [if_pos hc]
    simp only
    rw [List.pairwise_map]
    refine hWF.imp_of_mem ?_
    intro a b _ _ hab
    by_cases ha : a.path == f.path && a.indexID == f.indexID
    · by_cases hb : b.path == f.path && b.indexID == f.indexID
      · rw [if_pos ha, if_pos hb]
        exact hab
      · rw [if_pos ha, if_neg hb]
        exact hab
    · by_cases hb : b.path == f.path && b.indexID == f.indexID
      · rw [if_neg ha, if_pos hb]
        exact hab
      · rw [if_neg ha, if_neg hb]
        exact hab
  · rw [if_neg hc]
    simp only
    rw [List.pairwise_append]
    refine ⟨hWF, List.pairwise_singleton _ _, ?_⟩
    intro a ha b hb
    have hbk : b.path = f.path ∧ b.indexID = f.indexID := by
      rw [List.mem_singleton] at hb
      rw [hb]
      exact ⟨rfl, rfl⟩
    rcases Classical.em (a.path = f.path) with hp | hp
    · rcases Classical.em (a.indexID = f.indexID) with hi | hi
      · exfalso
        apply hc
        rw [List.any_eq_true]
        exact ⟨a, ha, by simp [hp, hi]⟩
      · right
        rw [hbk.2]
        exact hi
    · left
      rw [hbk.1]
      exact hp

/-- `DeleteFile` preserves the key-uniqueness invariant. -/
theorem deleteFile_WF {st : Store} (hWF : st.WF) (p indexID : String) :
    (st.deleteFile p indexID).WF := by
  unfold Store.WF at hWF ⊢
  unfold Store.deleteFile
  exact hWF.sublist (List.filter_sublist _)

/-- Embedding of the mismatch test of `Syncer.CompareIndexes`
(sync.go:83-85): size differs, or modification time differs at one-second
granularity, or both checksums are non-empty and differ. -/
def updatedMismatch (s t : FileEntry) : Bool :=
  s.size != t.size || s.modTime.sec != t.modTime.sec ||
    (s.checksum != "" && t.checksum != "" && s.checksum != t.checksum)

/-- Embedding of the `targetChecksumMap` lookup of `Syncer.CompareIndexes`
(sync.go:50-53): the map keys only non-empty checksums, so for a non-empty
`c` its entry is exactly the target files whose checksum equals `c`, in
listing order, and the key is present iff that list is non-empty.  The code
consults the map only for non-empty source checksums. -/
def checksumGroup (files : List FileEntry) (c : String) : List FileEntry :=
  files.filter (fun f => f.checksum == c)

/-- Embedding of `sync.SyncResult` (sync.go:14-21).  `duplicateFiles` lists
the assignments performed on the Go map `DuplicateFiles` in loop order; a
relative path can be assigned at most once per distinct source row, and
repeated assignments (possible only for duplicate relative paths) write the
same group, so the list determines the map. -/
structure SyncResult where
  sourceIndexID : String
  targetIndexID : String
  newFiles : List FileEntry
  updatedFiles : List FileEntry
  deletedFiles : List FileEntry
  duplicateFiles : List (String × List FileEntry)
deriving DecidableEq, Repr

/-- Embedding of `Syncer.CompareIndexes` (sync.go:32-104).  The Go loop over
`sourceFiles` appends to `NewFiles`/`UpdatedFiles`/`DuplicateFiles`
independently per element, and the loop over `targetFiles` appends to
`DeletedFiles`; each result component is therefore the corresponding
filter of the listing it traverses.  `targetMap` (built from ALL target
files, directories included, sync.go:47-54) is the last-assignment-wins
lookup by relative path; `sourceMap` (sync.go:92-95) records the relative
paths of ALL source files. -/
def compareIndexes (st : Store) (sourceIndexID targetIndexID : String) : SyncResult :=
  let sourceFiles := listFiles st sourceIndexID
  let targetFiles := listFiles st targetIndexID
  let tLook := fun rel => lastBy FileEntry.relativePath rel targetFiles
  { sourceIndexID := sourceIndexID
    targetIndexID := targetIndexID
    newFiles := sourceFiles.filter (fun f =>
      !f.isDirectory && (tLook f.relativePath).isNone)
    updatedFiles := sourceFiles.filter (fun f =>
      !f.isDirectory &&
        match tLook f.relativePath with
        | some t => updatedMismatch f t
        | none => false)
    deletedFiles := targetFiles.filter (fun t =>
      !t.isDirectory && !(sourceFiles.any (fun s => s.relativePath == t.relativePath)))
    duplicateFiles := sourceFiles.filterMap (fun f =>
      if !f.isDirectory && (tLook f.relativePath).isNone && f.checksum != "" &&
          !(checksumGroup targetFiles f.checksum).isEmpty then
        some (f.relativePath, checksumGroup targetFiles f.checksum)
      else none) }

/-- The Go `targetMap` misses a key exactly when no listed file carries it. -/
theorem lastBy_isNone_eq {key : FileEntry → String} {k : String} {l : List FileEntry} :
    (lastBy key k l).isNone = !(l.any (fun f => key f == k)) := by
  cases h : lastBy key k l with
  | none =>
    have hall := lastBy_eq_none.mp h
    have hany : (l.any (fun f => key f == k)) = false := by
      rw [List.any_eq_false]
      intro x hx
      simp [hall x hx]
    rw [hany]
    rfl
  | some g =>
    have hg := lastBy_eq_some h
    have hany : (l.any (fun f => key f == k)) = true := by
      rw [List.any_eq_true]
      exact ⟨g, hg.1, by simp [hg.2]⟩
    rw [hany]
    rfl

/-- C2: a non-directory source entry found in the target lookup at the same
relative path is classified updated iff its size differs, or its modification
time differs at one-second granularity, or both checksums are non-empty and
differ; when either side lacks a checksum the checksums are not consulted. -/
theorem compareIndexes_updated_iff (st : Store) (a b : String) (s t : FileEntry)
    (hs : s ∈ listFiles st a) (hdir : s.isDirectory = false)
    (ht : lastBy FileEntry.relativePath s.relativePath (listFiles st b) = some t) :
    s ∈ (compareIndexes st a b).updatedFiles ↔
      s.size ≠ t.size ∨ s.modTime.sec ≠ t.modTime.sec ∨
        (s.checksum ≠ "" ∧ t.checksum ≠ "" ∧ s.checksum ≠ t.checksum) := by
  simp only [compareIndexes, List.mem_filter]
  rw [ht]
  simp only [hs, true_and, hdir, Bool.not_false, Bool.true_and, updatedMismatch]
  simp [bne_iff_ne, ne_eq, or_assoc, and_assoc]

/-- A witness for `compareIndexes_updated_iff`: a source file whose size
differs from its same-relative-path counterpart is reported as updated. -/
def c2Store : Store :=
  { indexes := [⟨"S", "Source", "/s"⟩, ⟨"T", "Target", "/t"⟩]
    rows :=
      [ { id := 1, path := "/s/a.txt", relativePath := "a.txt", size := 100,
          modTime := ⟨10, 0⟩, checksum := "c1", indexID := "S", lastScanned := 0,
          isDirectory := false },
        { id := 2, path := "/t/a.txt", relativePath := "a.txt", size := 200,
          modTime := ⟨10, 0⟩, checksum := "c1", indexID := "T", lastScanned := 0,
          isDirectory := false } ]
    nextId := 3 }

def c2Src : FileEntry :=
  { id := 1, path := "/s/a.txt", relativePath := "a.txt", size := 100,
    modTime := ⟨10, 0⟩, checksum := "c1", indexID := "S", lastScanned := 0,
    isDirectory := false }

def c2Tgt : FileEntry :=
  { id := 2, path := "/t/a.txt", relativePath := "a.txt", size := 200,
    modTime := ⟨10, 0⟩, checksum := "c1", indexID := "T", lastScanned := 0,
    isDirectory := false }

theorem compareIndexes_updated_iff_witness :
    c2Src ∈ (compareIndexes c2Store "S" "T").updatedFiles :=
  (compareIndexes_updated_iff c2Store "S" "T" c2Src c2Tgt
    (by decide) (by decide) (by decide)).mpr (Or.inl (by decide))

/-- A store in which the source catalog `S` holds a regular file with
relative path `x` and the target catalog `T` holds a directory with the same
relative path (e.g. a path that is a file on one machine and a directory on
the other). -/
def c3Store : Store :=
  { indexes := [⟨"S", "Source", "/s"⟩, ⟨"T", "Target", "/t"⟩]
    rows :=
      [ { id := 1, path := "/s/x", relativePath := "x", size := 5,
          modTime := ⟨10, 0⟩, checksum := "cs", indexID := "S", lastScanned := 0,
          isDirectory := false },
        { id := 2, path := "/t/x", relativePath := "x", size := 0,
          modTime := ⟨20, 0⟩, checksum := "", indexID := "T", lastScanned := 0,
          isDirectory := true } ]
    nextId := 3 }

def c3Src : FileEntry :=
  { id := 1, path := "/s/x", relativePath := "x", size := 5,
    modTime := ⟨10, 0⟩, checksum := "cs", indexID := "S", lastScanned := 0,
    isDirectory := false }

/-- C3 counterexample: the by-relative-path lookup of `CompareIndexes` is
built from ALL target entries, directories included.  Here the non-directory
source entry `/s/x` has no non-directory target entry at its relative path,
so the claim classifies it as new, yet the code finds the target DIRECTORY
`/t/x` in the lookup and does not classify it as new. -/
theorem compareIndexes_dir_lookup_cex :
    c3Src.isDirectory = false ∧
    c3Src ∈ listFiles c3Store "S" ∧
    (∀ t ∈ listFiles c3Store "T", t.isDirectory = false →
        t.relativePath ≠ c3Src.relativePath) ∧
    c3Src ∉ (compareIndexes c3Store "S" "T").newFiles := by decide

/-- C3 (amended): the by-relative-path lookup is built from all target
entries (directories included); a non-directory source entry is classified
new exactly when no target entry of any kind carries its relative path, and
a new entry with a non-empty checksum found in the target checksum lookup
has the target entries sharing that checksum recorded as a duplicate hint
under its relative path. -/
theorem compareIndexes_new_iff (st : Store) (a b : String) (s : FileEntry)
    (hs : s ∈ listFiles st a) (hdir : s.isDirectory = false) :
    (s ∈ (compareIndexes st a b).newFiles ↔
       ∀ t ∈ listFiles st b, t.relativePath ≠ s.relativePath) ∧
    (s ∈ (compareIndexes st a b).newFiles → s.checksum ≠ "" →
       checksumGroup (listFiles st b) s.checksum ≠ [] →
       (s.relativePath, checksumGroup (listFiles st b) s.checksum)
         ∈ (compareIndexes st a b).duplicateFiles) := by
  constructor
  · simp only [compareIndexes, List.mem_filter]
    simp only [hs, true_and, hdir, Bool.not_false, Bool.true_and]
    rw [Option.isNone_iff_eq_none, lastBy_eq_none]
  · intro hnew hck hgrp
    have hnone : (lastBy FileEntry.relativePath s.relativePath (listFiles st b)).isNone := by
      simp only [compareIndexes, List.mem_filter, hdir, Bool.not_false, Bool.true_and] at hnew
      exact hnew.2
    simp only [compareIndexes, List.mem_filterMap]
    refine ⟨s, hs, ?_⟩
    have hb1 : (s.checksum != "") = true := by simpa using hck
    have hb2 : ((checksumGroup (listFiles st b) s.checksum).isEmpty) = false := by
      rw [List.isEmpty_eq_false_iff_exists_mem]
      cases hg : checksumGroup (listFiles st b) s.checksum with
      | nil => exact absurd hg hgrp
      | cons x xs =>
        exact ⟨x, List.mem_cons_self x xs⟩
    rw [if_pos]
    simp [hdir, hnone, hb1, hb2]

/-- A witness for `compareIndexes_new_iff`: in `c2Store` extended with a
source-only file, that file is classified new. -/
def c3bStore : Store :=
  { indexes := [⟨"S", "Source", "/s"⟩, ⟨"T", "Target", "/t"⟩]
    rows :=
      [ { id := 1, path := "/s/only.txt", relativePath := "only.txt", size := 7,
          modTime := ⟨10, 0⟩, checksum := "dup", indexID := "S", lastScanned := 0,
          isDirectory := false },
        { id := 2, path := "/t/other.txt", relativePath := "other.txt", size := 7,
          modTime := ⟨10, 0⟩, checksum := "dup", indexID := "T", lastScanned := 0,
          isDirectory := false } ]
    nextId := 3 }

def c3bSrc : FileEntry :=
  { id := 1, path := "/s/only.txt", relativePath := "only.txt", size := 7,
    modTime := ⟨10, 0⟩, checksum := "dup", indexID := "S", lastScanned := 0,
    isDirectory := false }

theorem compareIndexes_new_iff_witness :
    c3bSrc ∈ (compareIndexes c3bStore "S" "T").newFiles ∧
    ("only.txt", checksumGroup (listFiles c3bStore "T") "dup")
      ∈ (compareIndexes c3bStore "S" "T").duplicateFiles := by
  have h := compareIndexes_new_iff c3bStore "S" "T" c3bSrc (by decide) (by decide)
  have hnew : c3bSrc ∈ (compareIndexes c3bStore "S" "T").newFiles :=
    h.1.mpr (by decide)
  exact ⟨hnew, h.2 hnew (by decide) (by decide)⟩

/-- C4: the deleted set of `compare(A, B)` is exactly the non-directory
entries of catalog B whose relative path matches no entry of catalog A, and
swapping the arguments swaps new and deleted: the new list of
`compare(A, B)` is precisely the deleted list of `compare(B, A)` (so the
relative-path sets coincide in both directions). -/
theorem compareIndexes_deleted_and_symm (st : Store) (a b : String) :
    (∀ t, t ∈ (compareIndexes st a b).deletedFiles ↔
       t ∈ listFiles st b ∧ t.isDirectory = false ∧
         ∀ s ∈ listFiles st a, s.relativePath ≠ t.relativePath) ∧
    (compareIndexes st a b).newFiles = (compareIndexes st b a).deletedFiles := by
  constructor
  · intro t
    simp only [compareIndexes, List.mem_filter]
    constructor
    · rintro ⟨hmem, hp⟩
      rw [Bool.and_eq_true] at hp
      refine ⟨hmem, by simpa using hp.1, ?_⟩
      intro s hsm
      have hany := hp.2
      rw [Bool.not_eq_eq_eq_not, Bool.not_true, List.any_eq_false] at hany
      have := hany s hsm
      simpa using this
    · rintro ⟨hmem, hdir, hall⟩
      refine ⟨hmem, ?_⟩
      rw [Bool.and_eq_true]
      refine ⟨by simp [hdir], ?_⟩
      rw [Bool.not_eq_eq_eq_not, Bool.not_true, List.any_eq_false]
      intro s hsm
      simp [hall s hsm]
  · simp only [compareIndexes]
    apply List.filter_congr
    intro f _
    have : (lastBy FileEntry.relativePath f.relativePath (listFiles st b)).isNone =
        !((listFiles st b).any (fun s => s.relativePath == f.relativePath)) :=
      lastBy_isNone_eq
    rw [this]

/-- A witness for `compareIndexes_deleted_and_symm` at a concrete store. -/
theorem compareIndexes_deleted_and_symm_witness :
    c3bSrc ∈ (compareIndexes c3bStore "T" "S").deletedFiles ∧
    (compareIndexes c3bStore "S" "T").newFiles =
      (compareIndexes c3bStore "T" "S").deletedFiles := by
  have h := compareIndexes_deleted_and_symm c3bStore "T" "S"
  exact ⟨(h.1 c3bSrc).mpr (by decide), by decide⟩

/-- The entries collected by `Syncer.FindDuplicates` (sync.go:229-240): for
every catalog (in listing order) whose `ListFiles` succeeds, every listed
entry with a non-empty checksum that is not a directory.  A catalog whose
listing fails (oracle `listFails`) is skipped by the `continue`. -/
def collectedEntries (st : Store) (listFails : String → Bool) : List FileEntry :=
  (st.indexes.filter (fun ix => !listFails ix.id)).flatMap
    (fun ix => (listFiles st ix.id).filter (fun f => f.checksum != "" && !f.isDirectory))

/-- Embedding of `Syncer.FindDuplicates` (sync.go:221-251) as the lookup
function of the returned map: `checksumMap` groups the collected entries by
checksum, and only groups with more than one member are kept (a missing key
reads as the empty list, like a `nil` slice from a Go map). -/
def findDuplicates (st : Store) (listFails : String → Bool) (c : String) :
    List FileEntry :=
  let g := (collectedEntries st listFails).filter (fun f => f.checksum == c)
  if 1 < g.length then g else []

/-- C5: `FindDuplicates` returns, keyed by fingerprint, exactly the groups of
two or more non-directory entries sharing that non-empty fingerprint across
all catalogs whose listing succeeded; a fingerprint held by at most one entry
yields no group, and a catalog whose listing fails is skipped while the rest
are still grouped. -/
theorem findDuplicates_spec (st : Store) (listFails : String → Bool)
    (c : String) (f : FileEntry) :
    (f ∈ findDuplicates st listFails c ↔
       2 ≤ ((collectedEntries st listFails).filter (fun g => g.checksum == c)).length ∧
       f.checksum = c ∧ f.checksum ≠ "" ∧ f.isDirectory = false ∧
       ∃ ix ∈ st.indexes, listFails ix.id = false ∧ f ∈ listFiles st ix.id) ∧
    (((collectedEntries st listFails).filter (fun g => g.checksum == c)).length ≤ 1 →
       findDuplicates st listFails c = []) := by
  constructor
  · unfold findDuplicates
    by_cases hlen :
        1 < ((collectedEntries st listFails).filter (fun g => g.checksum == c)).length
    · rw [if_pos hlen]
      constructor
      · intro hf
        have hmem := (List.mem_filter.mp hf).1
        have hcksm : f.checksum = c := by
          have := (List.mem_filter.mp hf).2
          simpa using this
        unfold collectedEntries at hmem
        rw [List.mem_flatMap] at hmem
        obtain ⟨ix, hix, hfx⟩ := hmem
        have hixm := List.mem_filter.mp hix
        have hff := List.mem_filter.mp hfx
        have hprops := hff.2
        rw [Bool.and_eq_true] at hprops
        refine ⟨hlen, hcksm, by simpa using hprops.1, by simpa using hprops.2,
          ix, hixm.1, by simpa using hixm.2, hff.1⟩
      · rintro ⟨-, hck, hne, hdir, ix, hix, hfail, hfm⟩
        rw [List.mem_filter]
        constructor
        · unfold collectedEntries
          rw [List.mem_flatMap]
          refine ⟨ix, ?_, ?_⟩
          · rw [List.mem_filter]
            exact ⟨hix, by simp [hfail]⟩
          · rw [List.mem_filter]
            refine ⟨hfm, ?_⟩
            simp [hdir]
            simpa using hne
        · simp [hck]
    · rw [if_neg hlen]
      simp only [List.not_mem_nil, false_iff]
      intro h
      exact hlen (lt_of_lt_of_le one_lt_two h.1)
  · intro hle
    unfold findDuplicates
    rw [if_neg]
    intro hlt
    exact absurd (lt_of_lt_of_le hlt hle) (by norm_num)

/-- The spec's duplicate-grouping scenario: three catalogs each hold one file
with checksum `dup-xyz`; a fourth file has checksum `unique-1`. -/
def c5Store : Store :=
  { indexes := [⟨"I1", "One", "/p1"⟩, ⟨"I2", "Two", "/p2"⟩, ⟨"I3", "Three", "/p3"⟩]
    rows :=
      [ { id := 1, path := "/p1/f1", relativePath := "f1", size := 1,
          modTime := ⟨0, 0⟩, checksum := "dup-xyz", indexID := "I1",
          lastScanned := 0, isDirectory := false },
        { id := 2, path := "/p2/f2", relativePath := "f2", size := 1,
          modTime := ⟨0, 0⟩, checksum := "dup-xyz", indexID := "I2",
          lastScanned := 0, isDirectory := false },
        { id := 3, path := "/p3/f3", relativePath := "f3", size := 1,
          modTime := ⟨0, 0⟩, checksum := "dup-xyz", indexID := "I3",
          lastScanned := 0, isDirectory := false },
        { id := 4, path := "/p1/u", relativePath := "u", size := 1,
          modTime := ⟨0, 0⟩, checksum := "unique-1", indexID := "I1",
          lastScanned := 0, isDirectory := false } ]
    nextId := 5 }

theorem findDuplicates_spec_witness :
    ({ id := 1, path := "/p1/f1", relativePath := "f1", size := 1,
       modTime := ⟨0, 0⟩, checksum := "dup-xyz", indexID := "I1",
       lastScanned := 0, isDirectory := false } : FileEntry)
      ∈ findDuplicates c5Store (fun _ => false) "dup-xyz" ∧
    findDuplicates c5Store (fun _ => false) "unique-1" = [] := by
  constructor
  · exact (findDuplicates_spec c5Store (fun _ => false) "dup-xyz" _).1.mpr
      (by decide)
  · exact (findDuplicates_spec c5Store (fun _ => false) "unique-1"
      { id := 4, path := "/p1/u", relativePath := "u", size := 1,
        modTime := ⟨0, 0⟩, checksum := "unique-1", indexID := "I1",
        lastScanned := 0, isDirectory := false }).2 (by decide)

/-- Single-character `strings.ReplaceAll`: each occurrence of `old` (one
character) is replaced by the string `new`; with a one-character pattern the
Go semantics is exactly this character-wise expansion. -/
def replaceAllChar (old : Char) (new : List Char) (s : List Char) : List Char :=
  s.flatMap (fun c => if c = old then new else [c])

/-- Embedding of `convertPatternToLike` (database.go, `DB.FindFiles` helper):
escape the SQL LIKE special characters first (backslash before the others),
then substitute the shell wildcards.  Applied to the pattern characters. -/
def convertPatternToLike (pattern : List Char) : List Char :=
  let p1 := replaceAllChar '\\' ['\\', '\\'] pattern
  let p2 := replaceAllChar '%' ['\\', '%'] p1
  let p3 := replaceAllChar '_' ['\\', '_'] p2
  let p4 := replaceAllChar '*' ['%'] p3
  replaceAllChar '?' ['_'] p4

/-- Reference semantics (from the spec, section 4.7): shell-style glob
matching over the relative path, where only `*` (any run) and `?` (any single
character) are special and every other character, including `%`, `_` and the
backslash, matches itself literally. -/
def specGlobMatch : List Char → List Char → Bool
  | [], s => s.isEmpty
  | '*' :: ps, s => (s.tails).any (fun t => specGlobMatch ps t)
  | '?' :: ps, s =>
    match s with
    | [] => false
    | _ :: ss => specGlobMatch ps ss
  | p :: ps, s =>
    match s with
    | [] => false
    | c :: ss => p == c && specGlobMatch ps ss

/-- ASCII lower-casing as performed by SQLite's built-in `LIKE`. -/
def asciiLower (c : Char) : Char :=
  if c.toNat ≥ 65 ∧ c.toNat ≤ 90 then Char.ofNat (c.toNat + 32) else c

/-- The store's predicate semantics for the generated condition
`f.relative_path LIKE ?` (database.go, `DB.FindFiles`): SQLite's built-in
`LIKE` with its defaults, since the query supplies no `ESCAPE` clause.  Per
the SQLite documentation, `%` matches any run, `_` matches any single
character, every other character (the backslash included — without `ESCAPE`
there is no escape character) matches itself, ASCII case-insensitively. -/
def sqliteLike : List Char → List Char → Bool
  | [], s => s.isEmpty
  | '%' :: ps, s => (s.tails).any (fun t => sqliteLike ps t)
  | '_' :: ps, s =>
    match s with
    | [] => false
    | _ :: ss => sqliteLike ps ss
  | p :: ps, s =>
    match s with
    | [] => false
    | c :: ss => asciiLower p == asciiLower c && sqliteLike ps ss

/-- The name-pattern predicate that `DB.FindFiles` evaluates in the store for
a given `NamePattern`: the translated pattern matched by the store's LIKE
against the entry's relative path. -/
def findFilesNameMatch (pattern relPath : String) : Bool :=
  sqliteLike (convertPatternToLike pattern.toList) relPath.toList

/-- C6: the translation does escape `%`, `_` and `\` before substituting the
glob wildcards, but the generated predicate `relative_path LIKE ?` carries no
`ESCAPE` clause, so in the store (SQLite) the inserted backslashes are
ordinary characters rather than escapes.  At the failing input — pattern
`100%.txt` against a file whose relative path is literally `100%.txt` — the
shell glob matches, while the store predicate does not (it instead matches
paths with a literal backslash, such as `100\x.txt`).  The claimed
literal-matching property therefore fails on the code. -/
theorem globEscape_sqlite_mismatch :
    convertPatternToLike ("100%.txt".toList) = ("100\\%.txt".toList) ∧
    specGlobMatch ("100%.txt".toList) ("100%.txt".toList) = true ∧
    findFilesNameMatch "100%.txt" "100%.txt" = false ∧
    findFilesNameMatch "100%.txt" "100\\x.txt" = true ∧
    specGlobMatch ("100%.txt".toList) ("100\\x.txt".toList) = false := by decide

/-- C9: upserting a key already present overwrites exactly size,
modification time, checksum (fingerprint), last-scanned timestamp and the
directory flag of the matching row — its `id` (identity) and stored
`relative_path` are untouched — and every post-upsert row with that key
arises this way, rows with other keys being untouched; upserting an absent
key appends a fresh row. -/
theorem upsertFile_semantics (st : Store) (f : FileEntry) :
    ((∃ r ∈ st.rows, r.path = f.path ∧ r.indexID = f.indexID) →
       (∀ r ∈ st.rows, r.path = f.path → r.indexID = f.indexID →
          { r with size := f.size, modTime := f.modTime, checksum := f.checksum,
                   lastScanned := f.lastScanned, isDirectory := f.isDirectory }
            ∈ (st.upsertFile f).rows) ∧
       (∀ r2 ∈ (st.upsertFile f).rows, r2.path = f.path → r2.indexID = f.indexID →
          ∃ r ∈ st.rows, r.path = f.path ∧ r.indexID = f.indexID ∧
            r2 = { r with size := f.size, modTime := f.modTime, checksum := f.checksum,
                          lastScanned := f.lastScanned, isDirectory := f.isDirectory })) ∧
    ((∀ r ∈ st.rows, ¬(r.path = f.path ∧ r.indexID = f.indexID)) →
       (st.upsertFile f).rows = st.rows ++ [{ f with id := st.nextId }]) ∧
    (∀ r, ¬(r.path = f.path ∧ r.indexID = f.indexID) →
       (r ∈ (st.upsertFile f).rows ↔ r ∈ st.rows)) := by
  refine ⟨?_, upsertFile_insert, fun r hr => upsertFile_mem_other hr⟩
  intro hex
  constructor
  · intro r hr hp hi
    exact upsertFile_key_overwrite hr hp hi
  · intro r2 hr2 hp hi
    exact upsertFile_key_src hex hr2 hp hi

def c9Store : Store :=
  { indexes := [⟨"I", "Cat", "/r"⟩]
    rows :=
      [ { id := 7, path := "/r/a", relativePath := "a", size := 1,
          modTime := ⟨1, 0⟩, checksum := "old", indexID := "I",
          lastScanned := 1, isDirectory := false } ]
    nextId := 8 }

def c9New : FileEntry :=
  { id := 0, path := "/r/a", relativePath := "CHANGED", size := 2,
    modTime := ⟨2, 0⟩, checksum := "new", indexID := "I",
    lastScanned := 2, isDirectory := false }

/-- A witness for `upsertFile_semantics`: upserting over an existing key
keeps the row's id 7 and relative path `a` while the mutable columns take
the new values — even though the upserted entry carries a different
relative path. -/
theorem upsertFile_semantics_witness :
    ({ id := 7, path := "/r/a", relativePath := "a", size := 2,
       modTime := ⟨2, 0⟩, checksum := "new", indexID := "I",
       lastScanned := 2, isDirectory := false } : FileEntry)
      ∈ (c9Store.upsertFile c9New).rows := by
  have h := (upsertFile_semantics c9Store c9New).1 (by decide)
  exact h.1 ({ id := 7, path := "/r/a", relativePath := "a", size := 1,
               modTime := ⟨1, 0⟩, checksum := "old", indexID := "I",
               lastScanned := 1, isDirectory := false } : FileEntry)
    (by decide) (by decide) (by decide)

/-- One object yielded by the `filepath.Walk` traversal after the hidden-name
filtering of the walk callback: its absolute path, the relative path computed
by `filepath.Rel(rootPath, path)`, the stat data, and the value
`models.CalculateChecksum(path)` would return at this point of the walk
(`none` embeds a read error, after which the entry's checksum field keeps its
zero value `""`). -/
structure WalkItem where
  path : String
  relPath : String
  size : Int
  modTime : GoTime
  isDir : Bool
  readChecksum : Option String
deriving DecidableEq, Repr

/-- Aggregate counters of `Indexer.Reindex` (indexer.go:259-265; `size` and
`processed` feed only the progress display and are omitted). -/
structure ReindexStats where
  added : Nat
  updated : Nat
  removed : Nat
deriving DecidableEq, Repr

/-- The change test of `Indexer.Reindex` (indexer.go:339-341): an entry needs
an upsert when it is not in the existing map, or its size differs, or its
modification time differs at one-second granularity (`ModTime.Unix()`). -/
def needsUpdate (existing : Option FileEntry) (it : WalkItem) : Bool :=
  match existing with
  | none => true
  | some e => e.size != it.size || e.modTime.sec != it.modTime.sec

/-- The checksum policy of `Indexer.Reindex` (indexer.go:354-364): for a
non-directory, recompute when checksums were requested, the entry is new, or
the stored checksum is empty (a failed read leaves the zero value `""`);
otherwise carry the stored checksum forward.  The branch structure mirrors
the Go `if !info.IsDir() && (calculateChecksums || !exists ||
existing.Checksum == "") { ... } else if exists { ... }`. -/
def reindexChecksum (calcSums : Bool) (existing : Option FileEntry) (it : WalkItem) : String :=
  match existing with
  | none => if !it.isDir then it.readChecksum.getD "" else ""
  | some e =>
    if !it.isDir && (calcSums || e.checksum == "") then it.readChecksum.getD ""
    else e.checksum

/-- The walk phase of `Indexer.Reindex` (indexer.go:319-397): for each walked
object, consult the existing-entries map (fixed at the start of the run),
upsert a fresh entry when the change test fires — aborting the whole
reconcile if the upsert fails — and count it as added or updated.  The error
value carries the offending path (`failed to upsert file %s`). -/
def reindexWalk (indexID : String) (now : Nat) (calcSums : Bool)
    (upsertFails : String → Bool) (lookup : String → Option FileEntry) :
    Store → ReindexStats → List WalkItem → Except String (Store × ReindexStats)
  | st, s, [] => Except.ok (st, s)
  | st, s, it :: rest =>
    let existing := lookup it.path
    if needsUpdate existing it then
      if upsertFails it.path then Except.error it.path
      else
        let fe : FileEntry :=
          { id := 0, path := it.path, relativePath := it.relPath, size := it.size,
            modTime := it.modTime, checksum := reindexChecksum calcSums existing it,
            indexID := indexID, lastScanned := now, isDirectory := it.isDir }
        let s2 := if existing.isSome then { s with updated := s.updated + 1 }
                  else { s with added := s.added + 1 }
        reindexWalk indexID now calcSums upsertFails lookup (st.upsertFile fe) s2 rest
    else
      reindexWalk indexID now calcSums upsertFails lookup st s rest

/-- The removal phase of `Indexer.Reindex` (indexer.go:403-412): every
previously known path not observed by the walk is deleted; a failing delete
is absorbed (the Go code continues without even printing) and only a
successful delete increments `removed`.  The Go loop ranges over the keys of
`existingMap` in unspecified map order; deletions of distinct keys commute
and the counter is order-independent, so the listing order determinises it. -/
def reindexRemove (indexID : String) (deleteFails : String → Bool)
    (foundPaths : List String) :
    Store → ReindexStats → List String → Store × ReindexStats
  | st, s, [] => (st, s)
  | st, s, p :: rest =>
    if foundPaths.contains p then
      reindexRemove indexID deleteFails foundPaths st s rest
    else if deleteFails p then
      reindexRemove indexID deleteFails foundPaths st s rest
    else
      reindexRemove indexID deleteFails foundPaths (st.deleteFile p indexID)
        { s with removed := s.removed + 1 } rest

/-- Embedding of `Indexer.Reindex` (indexer.go:210-424) over the walk's visit
sequence: list the catalog's entries, build the existing-entries map keyed by
absolute path (last assignment wins), run the walk phase, then delete the
no-longer-observed paths (`foundPaths` is the set of all walked paths,
recorded before any per-entry test).  The keys of the Go `existingMap` are
the distinct paths of the listing.  The final `UpdateIndexStats` call only
refreshes the catalog's cached aggregates and is not modelled. -/
def reindex (st : Store) (indexID : String) (now : Nat) (calcSums : Bool)
    (upsertFails deleteFails : String → Bool) (visits : List WalkItem) :
    Except String (Store × ReindexStats) :=
  match reindexWalk indexID now calcSums upsertFails
      (fun p => lastBy FileEntry.path p (listFiles st indexID)) st ⟨0, 0, 0⟩ visits with
  | Except.error e => Except.error e
  | Except.ok (st2, s2) =>
    Except.ok (reindexRemove indexID deleteFails (visits.map WalkItem.path) st2 s2
      ((listFiles st indexID).map FileEntry.path).dedup)

/-- Any row present after an upsert was present before or carries the
upserted key. -/
theorem upsertFile_mem_src {st : Store} {f r : FileEntry}
    (hr : r ∈ (st.upsertFile f).rows) :
    r ∈ st.rows ∨ (r.path = f.path ∧ r.indexID = f.indexID) := by
  unfold Store.upsertFile at hr
  by_cases hc : st.rows.any (fun x => x.path == f.path && x.indexID == f.indexID)
  · rw [if_pos hc] at hr
    obtain ⟨x, hx, hxr⟩ := List.mem_map.mp hr
    by_cases hk : x.path == f.path && x.indexID == f.indexID
    · rw [if_pos hk] at hxr
      right
      have hkk := (Bool.and_eq_true _ _).mp hk
      rw [← hxr]
      exact ⟨beq_iff_eq.mp hkk.1, beq_iff_eq.mp hkk.2⟩
    · rw [if_neg hk] at hxr
      left
      rw [← hxr]
      exact hx
  · rw [if_neg hc] at hr
    simp only [List.mem_append, List.mem_singleton] at hr
    rcases hr with hr | hr
    · exact Or.inl hr
    · right
      rw [hr]
      exact ⟨rfl, rfl⟩

/-- With a never-failing upsert oracle the walk phase always succeeds. -/
theorem reindexWalk_noFail_ok (indexID : String) (now : Nat) (calcSums : Bool)
    (lookup : String → Option FileEntry) :
    ∀ (visits : List WalkItem) (st : Store) (s : ReindexStats),
      ∃ st2 s2, reindexWalk indexID now calcSums (fun _ => false) lookup st s visits =
        Except.ok (st2, s2) := by
  intro visits
  induction visits with
  | nil => intro st s; exact ⟨st, s, rfl⟩
  | cons it rest ih =>
    intro st s
    by_cases hn : needsUpdate (lookup it.path) it
    · simp only [reindexWalk, hn, if_true, if_false, Bool.false_eq_true]
      exact ih _ _
    · simp only [reindexWalk, hn, Bool.false_eq_true, if_false]
      exact ih st s

/-- The walk phase touches no row whose path it never visits. -/
theorem reindexWalk_frame (indexID : String) (now : Nat) (calcSums : Bool)
    (upsertFails : String → Bool) (lookup : String → Option FileEntry) :
    ∀ (visits : List WalkItem) (st : Store) (s : ReindexStats) (st2 : Store)
      (s2 : ReindexStats),
      reindexWalk indexID now calcSums upsertFails lookup st s visits =
          Except.ok (st2, s2) →
        ∀ r : FileEntry, r.path ∉ visits.map WalkItem.path →
          (r ∈ st2.rows ↔ r ∈ st.rows) := by
  intro visits
  induction visits with
  | nil =>
    intro st s st2 s2 h r _
    simp only [reindexWalk] at h
    obtain ⟨h1, h2⟩ := Prod.mk.injEq .. ▸ Except.ok.inj h
    rw [← h1]
  | cons it rest ih =>
    intro st s st2 s2 h r hp
    have hp1 : r.path ≠ it.path := by
      intro he
      exact hp (by simp [he])
    have hp2 : r.path ∉ rest.map WalkItem.path := by
      intro he
      exact hp (by simp [he])
    simp only [reindexWalk] at h
    by_cases hn : needsUpdate (lookup it.path) it
    · rw [if_pos hn] at h
      by_cases hf : upsertFails it.path
      · rw [if_pos hf] at h
        exact absurd h (by simp)
      · rw [if_neg hf] at h
        have := ih _ _ _ _ h r hp2
        rw [this]
        exact upsertFile_mem_other (by intro hk; exact hp1 hk.1)
    · rw [if_neg hn] at h
      exact ih _ _ _ _ h r hp2

/-- Any row present after the walk phase was present before or has a walked
path with the reconciled catalog's identifier. -/
theorem reindexWalk_mem_src (indexID : String) (now : Nat) (calcSums : Bool)
    (upsertFails : String → Bool) (lookup : String → Option FileEntry) :
    ∀ (visits : List WalkItem) (st : Store) (s : ReindexStats) (st2 : Store)
      (s2 : ReindexStats),
      reindexWalk indexID now calcSums upsertFails lookup st s visits =
          Except.ok (st2, s2) →
        ∀ r ∈ st2.rows, r ∈ st.rows ∨
          (r.path ∈ visits.map WalkItem.path ∧ r.indexID = indexID) := by
  intro visits
  induction visits with
  | nil =>
    intro st s st2 s2 h r hr
    simp only [reindexWalk] at h
    obtain ⟨h1, h2⟩ := Prod.mk.injEq .. ▸ Except.ok.inj h
    rw [← h1] at hr
    exact Or.inl hr
  | cons it rest ih =>
    intro st s st2 s2 h r hr
    simp only [reindexWalk] at h
    by_cases hn : needsUpdate (lookup it.path) it
    · rw [if_pos hn] at h
      by_cases hf : upsertFails it.path
      · rw [if_pos hf] at h
        exact absurd h (by simp)
      · rw [if_neg hf] at h
        rcases ih _ _ _ _ h r hr with hin | hin
        · rcases upsertFile_mem_src hin with hin2 | hin2
          · exact Or.inl hin2
          · right
            exact ⟨by simp [hin2.1], hin2.2⟩
        · right
          exact ⟨by simp [hin.1], hin.2⟩
    · rw [if_neg hn] at h
      rcases ih _ _ _ _ h r hr with hin | hin
      · exact Or.inl hin
      · right
        exact ⟨by simp [hin.1], hin.2⟩

/-- The walk phase never touches the removed counter. -/
theorem reindexWalk_removed (indexID : String) (now : Nat) (calcSums : Bool)
    (upsertFails : String → Bool) (lookup : String → Option FileEntry) :
    ∀ (visits : List WalkItem) (st : Store) (s : ReindexStats) (st2 : Store)
      (s2 : ReindexStats),
      reindexWalk indexID now calcSums upsertFails lookup st s visits =
          Except.ok (st2, s2) →
        s2.removed = s.removed := by
  intro visits
  induction visits with
  | nil =>
    intro st s st2 s2 h
    simp only [reindexWalk] at h
    obtain ⟨h1, h2⟩ := Prod.mk.injEq .. ▸ Except.ok.inj h
    rw [← h2]
  | cons it rest ih =>
    intro st s st2 s2 h
    simp only [reindexWalk] at h
    by_cases hn : needsUpdate (lookup it.path) it
    · rw [if_pos hn] at h
      by_cases hf : upsertFails it.path
      · rw [if_pos hf] at h
        exact absurd h (by simp)
      · rw [if_neg hf] at h
        have := ih _ _ _ _ h
        rw [this]
        by_cases he : (lookup it.path).isSome
        · simp [he]
        · simp [he]
    · rw [if_neg hn] at h
      exact ih _ _ _ _ h


/-- The removal phase deletes exactly the stale paths whose delete succeeds,
counts exactly those deletions, and leaves the added/updated counters
alone. -/
theorem reindexRemove_spec (indexID : String) (deleteFails : String → Bool)
    (foundPaths : List String) :
    ∀ (paths : List String) (st : Store) (s : ReindexStats),
      (∀ r : FileEntry,
        r ∈ (reindexRemove indexID deleteFails foundPaths st s paths).1.rows ↔
          r ∈ st.rows ∧ ¬(r.indexID = indexID ∧ r.path ∈ paths ∧
            r.path ∉ foundPaths ∧ deleteFails r.path = false)) ∧
      (reindexRemove indexID deleteFails foundPaths st s paths).2.removed =
        s.removed +
          (paths.filter (fun p => !(foundPaths.contains p) && !(deleteFails p))).length ∧
      (reindexRemove indexID deleteFails foundPaths st s paths).2.added = s.added ∧
      (reindexRemove indexID deleteFails foundPaths st s paths).2.updated = s.updated := by
  intro paths
  induction paths with
  | nil =>
    intro st s
    refine ⟨?_, by simp [reindexRemove], rfl, rfl⟩
    intro r
    simp [reindexRemove]
  | cons p rest ih =>
    intro st s
    by_cases hfound : foundPaths.contains p
    · simp only [reindexRemove, if_pos hfound]
      obtain ⟨ihm, ihr, iha, ihu⟩ := ih st s
      refine ⟨?_, ?_, iha, ihu⟩
      · intro r
        rw [ihm r]
        constructor
        · rintro ⟨hr, hc⟩
          refine ⟨hr, ?_⟩
          rintro ⟨h1, h2, h3, h4⟩
          rcases List.mem_cons.mp h2 with he | h2
          · apply h3
            rw [he]
            simpa using hfound
          · exact hc ⟨h1, h2, h3, h4⟩
        · rintro ⟨hr, hc⟩
          refine ⟨hr, ?_⟩
          rintro ⟨h1, h2, h3, h4⟩
          exact hc ⟨h1, List.mem_cons_of_mem p h2, h3, h4⟩
      · rw [ihr, List.filter_cons]
        have hcond : (!(foundPaths.contains p) && !(deleteFails p)) = false := by
          rw [hfound]
          rfl
        rw [hcond]
        simp
    · by_cases hdf : deleteFails p
      · simp only [reindexRemove, if_neg hfound, if_pos hdf]
        obtain ⟨ihm, ihr, iha, ihu⟩ := ih st s
        refine ⟨?_, ?_, iha, ihu⟩
        · intro r
          rw [ihm r]
          constructor
          · rintro ⟨hr, hc⟩
            refine ⟨hr, ?_⟩
            rintro ⟨h1, h2, h3, h4⟩
            rcases List.mem_cons.mp h2 with he | h2
            · rw [he, hdf] at h4
              exact Bool.noConfusion h4
            · exact hc ⟨h1, h2, h3, h4⟩
          · rintro ⟨hr, hc⟩
            refine ⟨hr, ?_⟩
            rintro ⟨h1, h2, h3, h4⟩
            exact hc ⟨h1, List.mem_cons_of_mem p h2, h3, h4⟩
        · rw [ihr, List.filter_cons]
          have hcond : (!(foundPaths.contains p) && !(deleteFails p)) = false := by
            rw [hdf]
            simp
          rw [hcond]
          simp
      · simp only [reindexRemove, if_neg hfound, if_neg hdf]
        obtain ⟨ihm, ihr, iha, ihu⟩ := ih (st.deleteFile p indexID)
          { s with removed := s.removed + 1 }
        refine ⟨?_, ?_, iha, ihu⟩
        · intro r
          rw [ihm r, deleteFile_mem]
          constructor
          · rintro ⟨⟨hr, hk⟩, hc⟩
            refine ⟨hr, ?_⟩
            rintro ⟨h1, h2, h3, h4⟩
            rcases List.mem_cons.mp h2 with he | h2
            · exact hk ⟨he, h1⟩
            · exact hc ⟨h1, h2, h3, h4⟩
          · rintro ⟨hr, hc⟩
            have hnk : ¬(r.path = p ∧ r.indexID = indexID) := by
              rintro ⟨he, hid⟩
              apply hc
              refine ⟨hid, ?_, ?_, ?_⟩
              · rw [he]
                exact List.mem_cons_self p rest
              · rw [he]
                intro hmem
                apply hfound
                simpa using hmem
              · rw [he]
                exact Bool.eq_false_iff.mpr hdf
            refine ⟨⟨hr, hnk⟩, ?_⟩
            rintro ⟨h1, h2, h3, h4⟩
            exact hc ⟨h1, List.mem_cons_of_mem p h2, h3, h4⟩
        · rw [ihr, List.filter_cons]
          have hc1 : foundPaths.contains p = false := Bool.eq_false_iff.mpr hfound
          have hc2 : deleteFails p = false := Bool.eq_false_iff.mpr hdf
          rw [hc1, hc2]
          simp only [Bool.not_false, Bool.and_self, if_true, List.length_cons]
          omega

/-- A catalog with a single stored entry whose filesystem object is gone. -/
def c8Store : Store :=
  { indexes := [⟨"cat", "Cat", "/r"⟩]
    rows :=
      [ { id := 1, path := "/r/gone", relativePath := "gone", size := 1,
          modTime := ⟨0, 0⟩, checksum := "", indexID := "cat", lastScanned := 0,
          isDirectory := false } ]
    nextId := 2 }

/-- C8 counterexample: during the removal phase the delete of the stale entry
`/r/gone` fails, yet `Reindex` returns success — with the entry still in the
store and not counted as removed — instead of propagating the error and
stopping, as the claim states. -/
theorem reindex_delete_error_absorbed_cex :
    reindex c8Store "cat" 5 false (fun _ => false) (fun p => p == "/r/gone") [] =
      Except.ok (c8Store, ⟨0, 0, 0⟩) := rfl

/-- C8 (amended): a failing `DeleteFile` during the removal phase is
absorbed, not propagated: with upserts succeeding, `Reindex` always returns
success; every stale row whose delete fails stays in the store; and
`removed` counts exactly the stale paths whose delete succeeded.  (Upsert
failures during the walk phase and the initial listing failure do abort the
operation — indexer.go:366-371 and 215-218 — only delete errors are
swallowed.) -/
theorem reindex_delete_error_absorbed (st : Store) (indexID : String) (now : Nat)
    (calcSums : Bool) (deleteFails : String → Bool) (visits : List WalkItem) :
    ∃ st2 s2,
      reindex st indexID now calcSums (fun _ => false) deleteFails visits =
        Except.ok (st2, s2) ∧
      (∀ r ∈ st.rows, r.indexID = indexID → r.path ∉ visits.map WalkItem.path →
         deleteFails r.path = true → r ∈ st2.rows) ∧
      s2.removed = (((listFiles st indexID).map FileEntry.path).dedup.filter
        (fun p => !((visits.map WalkItem.path).contains p) && !(deleteFails p))).length := by
  obtain ⟨stw, sw, hw⟩ := reindexWalk_noFail_ok indexID now calcSums
    (fun p => lastBy FileEntry.path p (listFiles st indexID)) visits st ⟨0, 0, 0⟩
  obtain ⟨hmem, hrem, -, -⟩ := reindexRemove_spec indexID deleteFails
    (visits.map WalkItem.path) ((listFiles st indexID).map FileEntry.path).dedup stw sw
  refine ⟨(reindexRemove indexID deleteFails (visits.map WalkItem.path) stw sw
      ((listFiles st indexID).map FileEntry.path).dedup).1,
    (reindexRemove indexID deleteFails (visits.map WalkItem.path) stw sw
      ((listFiles st indexID).map FileEntry.path).dedup).2, ?_, ?_, ?_⟩
  · unfold reindex
    rw [hw]
  · intro r hr hid hnp hdf
    rw [hmem r]
    constructor
    · rw [reindexWalk_frame indexID now calcSums (fun _ => false) _ visits st
        ⟨0, 0, 0⟩ stw sw hw r hnp]
      exact hr
    · rintro ⟨-, -, -, h4⟩
      rw [hdf] at h4
      exact Bool.noConfusion h4
  · rw [hrem, reindexWalk_removed indexID now calcSums (fun _ => false) _ visits st
      ⟨0, 0, 0⟩ stw sw hw]
    simp

/-- A witness for `reindex_delete_error_absorbed` at the concrete store of
the counterexample: the stale row survives and `removed` is zero. -/
theorem reindex_delete_error_absorbed_witness :
    ∃ st2 s2,
      reindex c8Store "cat" 5 false (fun _ => false) (fun p => p == "/r/gone") [] =
        Except.ok (st2, s2) ∧
      ({ id := 1, path := "/r/gone", relativePath := "gone", size := 1,
         modTime := ⟨0, 0⟩, checksum := "", indexID := "cat", lastScanned := 0,
         isDirectory := false } : FileEntry) ∈ st2.rows ∧
      s2.removed = 0 := by
  obtain ⟨st2, s2, hok, hkeep, hrem⟩ := reindex_delete_error_absorbed c8Store "cat" 5
    false (fun p => p == "/r/gone") []
  refine ⟨st2, s2, hok, ?_, ?_⟩
  · exact hkeep _ (by decide) (by decide) (by decide) (by decide)
  · rw [hrem]
    decide

/-- The change test on a found entry fails exactly when size and whole-second
modification time agree. -/
theorem needsUpdate_some_false {e : FileEntry} {it : WalkItem} :
    needsUpdate (some e) it = false ↔
      e.size = it.size ∧ e.modTime.sec = it.modTime.sec := by
  simp [needsUpdate]

/-- Invariant carried by the walk phase of a reconcile run over pairwise
distinct paths: after the walk, each visited path has a row of the catalog,
and every row of the catalog at a visited path agrees with the visit's size
and whole-second modification time — either because the walk upserted it, or
because the change test found it already equal. -/
theorem reindexWalk_run1 (indexID : String) (now : Nat) (calcSums : Bool)
    (lookup : String → Option FileEntry) :
    ∀ (visits : List WalkItem) (st : Store) (s : ReindexStats),
      (visits.map WalkItem.path).Nodup →
      (∀ it ∈ visits, needsUpdate (lookup it.path) it = false →
        (∃ r ∈ st.rows, r.path = it.path ∧ r.indexID = indexID) ∧
        (∀ r ∈ st.rows, r.path = it.path → r.indexID = indexID →
          r.size = it.size ∧ r.modTime.sec = it.modTime.sec)) →
      ∀ st2 s2,
        reindexWalk indexID now calcSums (fun _ => false) lookup st s visits =
            Except.ok (st2, s2) →
        ∀ it ∈ visits,
          (∃ r ∈ st2.rows, r.path = it.path ∧ r.indexID = indexID) ∧
          (∀ r ∈ st2.rows, r.path = it.path → r.indexID = indexID →
            r.size = it.size ∧ r.modTime.sec = it.modTime.sec) := by
  intro visits
  induction visits with
  | nil =>
    intro st s _ _ st2 s2 h it hit
    cases hit
  | cons it0 rest ih =>
    intro st s hnd hH st2 s2 h it hit
    have hnd0 : it0.path ∉ rest.map WalkItem.path := (List.nodup_cons.mp hnd).1
    have hndr : (rest.map WalkItem.path).Nodup := (List.nodup_cons.mp hnd).2
    simp only [reindexWalk] at h
    by_cases hn : needsUpdate (lookup it0.path) it0
    · rw [if_pos hn, if_neg (by simp)] at h
      have hH2 : ∀ it2 ∈ rest, needsUpdate (lookup it2.path) it2 = false →
          (∃ r ∈ (st.upsertFile
            { id := 0, path := it0.path, relativePath := it0.relPath, size := it0.size,
              modTime := it0.modTime,
              checksum := reindexChecksum calcSums (lookup it0.path) it0,
              indexID := indexID, lastScanned := now, isDirectory := it0.isDir }).rows,
              r.path = it2.path ∧ r.indexID = indexID) ∧
          (∀ r ∈ (st.upsertFile
            { id := 0, path := it0.path, relativePath := it0.relPath, size := it0.size,
              modTime := it0.modTime,
              checksum := reindexChecksum calcSums (lookup it0.path) it0,
              indexID := indexID, lastScanned := now, isDirectory := it0.isDir }).rows,
              r.path = it2.path → r.indexID = indexID →
              r.size = it2.size ∧ r.modTime.sec = it2.modTime.sec) := by
        intro it2 hit2 hnu2
        have hne : it2.path ≠ it0.path := by
          intro he
          exact hnd0 (he ▸ List.mem_map_of_mem WalkItem.path hit2)
        obtain ⟨⟨r, hr, hrp, hri⟩, hvals⟩ := hH it2 (List.mem_cons_of_mem it0 hit2) hnu2
        constructor
        · refine ⟨r, ?_, hrp, hri⟩
          rw [upsertFile_mem_other]
          · exact hr
          · rintro ⟨hp, -⟩
            exact hne (hrp ▸ hp)
        · intro r2 hr2 hp2 hi2
          have hr2m : r2 ∈ st.rows := by
            rw [upsertFile_mem_other] at hr2
            · exact hr2
            · rintro ⟨hp, -⟩
              exact hne (hp2 ▸ hp)
          exact hvals r2 hr2m hp2 hi2
      rcases List.mem_cons.mp hit with rfl | hit2
      · constructor
        · obtain ⟨r, hr, hrp, hri⟩ := upsertFile_key_mem st
            { id := 0, path := it.path, relativePath := it.relPath, size := it.size,
              modTime := it.modTime,
              checksum := reindexChecksum calcSums (lookup it.path) it,
              indexID := indexID, lastScanned := now, isDirectory := it.isDir }
          refine ⟨r, ?_, hrp, hri⟩
          rw [reindexWalk_frame indexID now calcSums (fun _ => false) lookup rest _ _
            _ _ h r (hrp ▸ hnd0)]
          exact hr
        · intro r2 hr2 hp2 hi2
          have hr2m : r2 ∈ (st.upsertFile
              { id := 0, path := it.path, relativePath := it.relPath, size := it.size,
                modTime := it.modTime,
                checksum := reindexChecksum calcSums (lookup it.path) it,
                indexID := indexID, lastScanned := now, isDirectory := it.isDir }).rows := by
            rw [← reindexWalk_frame indexID now calcSums (fun _ => false) lookup rest _ _
              _ _ h r2 (hp2 ▸ hnd0)]
            exact hr2
          obtain ⟨hsz, hmt, -, -, -⟩ := upsertFile_key_vals hr2m hp2 hi2
          exact ⟨hsz, by rw [hmt]⟩
      · exact ih _ _ hndr hH2 st2 s2 h it hit2
    · rw [if_neg hn] at h
      have hH2 : ∀ it2 ∈ rest, needsUpdate (lookup it2.path) it2 = false →
          (∃ r ∈ st.rows, r.path = it2.path ∧ r.indexID = indexID) ∧
          (∀ r ∈ st.rows, r.path = it2.path → r.indexID = indexID →
            r.size = it2.size ∧ r.modTime.sec = it2.modTime.sec) :=
        fun it2 hit2 hnu2 => hH it2 (List.mem_cons_of_mem it0 hit2) hnu2
      rcases List.mem_cons.mp hit with rfl | hit2
      · obtain ⟨⟨r, hr, hrp, hri⟩, hvals⟩ := hH it (List.mem_cons_self it rest)
          (Bool.eq_false_iff.mpr hn)
        constructor
        · refine ⟨r, ?_, hrp, hri⟩
          rw [reindexWalk_frame indexID now calcSums (fun _ => false) lookup rest _ _
            _ _ h r (hrp ▸ hnd0)]
          exact hr
        · intro r2 hr2 hp2 hi2
          have hr2m : r2 ∈ st.rows := by
            rw [← reindexWalk_frame indexID now calcSums (fun _ => false) lookup rest _ _
              _ _ h r2 (hp2 ▸ hnd0)]
            exact hr2
          exact hvals r2 hr2m hp2 hi2
      · exact ih _ _ hndr hH2 st2 s2 h it hit2

/-- When the change test fails on every visited object, the walk phase writes
nothing and counts nothing. -/
theorem reindexWalk_noop (indexID : String) (now : Nat) (calcSums : Bool)
    (upsertFails : String → Bool) (lookup : String → Option FileEntry) :
    ∀ (visits : List WalkItem) (st : Store) (s : ReindexStats),
      (∀ it ∈ visits, needsUpdate (lookup it.path) it = false) →
      reindexWalk indexID now calcSums upsertFails lookup st s visits =
        Except.ok (st, s) := by
  intro visits
  induction visits with
  | nil => intro st s _; rfl
  | cons it rest ih =>
    intro st s hall
    have h0 : needsUpdate (lookup it.path) it = false :=
      hall it (List.mem_cons_self it rest)
    simp only [reindexWalk, h0, Bool.false_eq_true, if_false]
    exact ih st s (fun it2 hit2 => hall it2 (List.mem_cons_of_mem it hit2))

/-- When every stale-candidate path was in fact observed by the walk, the
removal phase deletes nothing and counts nothing. -/
theorem reindexRemove_noop (indexID : String) (deleteFails : String → Bool)
    (foundPaths : List String) :
    ∀ (paths : List String) (st : Store) (s : ReindexStats),
      (∀ p ∈ paths, foundPaths.contains p = true) →
      reindexRemove indexID deleteFails foundPaths st s paths = (st, s) := by
  intro paths
  induction paths with
  | nil => intro st s _; rfl
  | cons p rest ih =>
    intro st s hall
    have h0 : foundPaths.contains p = true := hall p (List.mem_cons_self p rest)
    simp only [reindexRemove, h0, if_true]
    exact ih st s (fun q hq => hall q (List.mem_cons_of_mem p hq))

/-- C1: reconciliation is idempotent.  Starting from a store satisfying the
schema's key-uniqueness and walking the same visit sequence twice (the paths
of one walk are pairwise distinct; no filesystem change means the second walk
observes exactly what the first did), the second `Reindex` reports
`added = 0`, `updated = 0`, `removed = 0` and leaves the store untouched:
after the first run every stored entry of the catalog compares equal (same
size, same whole-second modification time) to the object the second walk
observes at its path, so no upsert fires, and every stored path is observed
again, so no delete fires. -/
theorem reindex_idempotent (st0 : Store) (indexID : String) (now1 now2 : Nat)
    (calcSums : Bool) (visits : List WalkItem) (st1 st2 : Store)
    (s1 s2 : ReindexStats)
    (hWF : st0.WF)
    (hnd : (visits.map WalkItem.path).Nodup)
    (h1 : reindex st0 indexID now1 calcSums (fun _ => false) (fun _ => false) visits =
      Except.ok (st1, s1))
    (h2 : reindex st1 indexID now2 calcSums (fun _ => false) (fun _ => false) visits =
      Except.ok (st2, s2)) :
    s2.added = 0 ∧ s2.updated = 0 ∧ s2.removed = 0 ∧ st2 = st1 := by
  obtain ⟨stw, sw, hw⟩ := reindexWalk_noFail_ok indexID now1 calcSums
    (fun p => lastBy FileEntry.path p (listFiles st0 indexID)) visits st0 ⟨0, 0, 0⟩
  have h1x : st1 = (reindexRemove indexID (fun _ => false) (visits.map WalkItem.path)
      stw sw ((listFiles st0 indexID).map FileEntry.path).dedup).1 ∧
      s1 = (reindexRemove indexID (fun _ => false) (visits.map WalkItem.path)
      stw sw ((listFiles st0 indexID).map FileEntry.path).dedup).2 := by
    unfold reindex at h1
    rw [hw] at h1
    have hinj := Except.ok.inj h1
    exact ⟨(congrArg Prod.fst hinj).symm, (congrArg Prod.snd hinj).symm⟩
  -- the initial hypothesis of the walk invariant, from the listing lookup
  have hH0 : ∀ it ∈ visits,
      needsUpdate (lastBy FileEntry.path it.path (listFiles st0 indexID)) it = false →
      (∃ r ∈ st0.rows, r.path = it.path ∧ r.indexID = indexID) ∧
      (∀ r ∈ st0.rows, r.path = it.path → r.indexID = indexID →
        r.size = it.size ∧ r.modTime.sec = it.modTime.sec) := by
    intro it _ hnu
    cases hl : lastBy FileEntry.path it.path (listFiles st0 indexID) with
    | none =>
      rw [hl] at hnu
      exact absurd hnu (by simp [needsUpdate])
    | some e =>
      rw [hl] at hnu
      obtain ⟨hvals⟩ := needsUpdate_some_false.mp hnu
      obtain ⟨hem, hep⟩ := lastBy_eq_some hl
      obtain ⟨her, hei⟩ := mem_listFiles.mp hem
      refine ⟨⟨e, her, hep, hei⟩, ?_⟩
      intro r hr hp hi
      have : r = e := WF_key_unique hWF hr her (hp.trans hep.symm) (hi.trans hei.symm)
      rw [this]
      exact needsUpdate_some_false.mp hnu
  have hwalkInv := reindexWalk_run1 indexID now1 calcSums
    (fun p => lastBy FileEntry.path p (listFiles st0 indexID)) visits st0 ⟨0, 0, 0⟩
    hnd hH0 stw sw hw
  obtain ⟨hmem1, -, -, -⟩ := reindexRemove_spec indexID (fun _ => false)
    (visits.map WalkItem.path) ((listFiles st0 indexID).map FileEntry.path).dedup stw sw
  -- after the first run: entries of the catalog sit at visited paths and
  -- carry the observed size and whole-second time
  have hst1sub : ∀ r ∈ st1.rows, r ∈ stw.rows := by
    intro r hr
    rw [h1x.1] at hr
    exact ((hmem1 r).mp hr).1
  have hst1found : ∀ r ∈ st1.rows, r.indexID = indexID →
      r.path ∈ visits.map WalkItem.path := by
    intro r hr hid
    rw [h1x.1] at hr
    obtain ⟨hrw, hnc⟩ := (hmem1 r).mp hr
    rcases reindexWalk_mem_src indexID now1 calcSums (fun _ => false) _ visits st0
      ⟨0, 0, 0⟩ stw sw hw r hrw with hr0 | hfound
    · by_contra hnf
      apply hnc
      refine ⟨hid, ?_, hnf, rfl⟩
      have : r ∈ listFiles st0 indexID := mem_listFiles.mpr ⟨hr0, hid⟩
      rw [List.mem_dedup]
      exact List.mem_map_of_mem FileEntry.path this
    · exact hfound.1
  -- the second run finds every visit unchanged
  have hnoupd : ∀ it ∈ visits,
      needsUpdate (lastBy FileEntry.path it.path (listFiles st1 indexID)) it = false := by
    intro it hit
    obtain ⟨⟨r, hrw, hrp, hri⟩, hvalsw⟩ := hwalkInv it hit
    have hr1 : r ∈ st1.rows := by
      rw [h1x.1, hmem1 r]
      refine ⟨hrw, ?_⟩
      rintro ⟨-, -, hnf, -⟩
      exact hnf (hrp ▸ List.mem_map_of_mem WalkItem.path hit)
    have hrl : r ∈ listFiles st1 indexID := mem_listFiles.mpr ⟨hr1, hri⟩
    cases hl : lastBy FileEntry.path it.path (listFiles st1 indexID) with
    | none =>
      exfalso
      exact (lastBy_eq_none.mp hl) r hrl hrp
    | some e =>
      obtain ⟨hem, hep⟩ := lastBy_eq_some hl
      obtain ⟨her1, hei⟩ := mem_listFiles.mp hem
      have hew : e ∈ stw.rows := hst1sub e her1
      rw [needsUpdate_some_false]
      exact hvalsw e hew hep hei
  -- the second walk is a pure no-op, the second removal skips every path
  have hw2 := reindexWalk_noop indexID now2 calcSums (fun _ => false)
    (fun p => lastBy FileEntry.path p (listFiles st1 indexID)) visits st1 ⟨0, 0, 0⟩ hnoupd
  have hr2 := reindexRemove_noop indexID (fun _ => false) (visits.map WalkItem.path)
    ((listFiles st1 indexID).map FileEntry.path).dedup st1 ⟨0, 0, 0⟩ (by
      intro p hp
      rw [List.mem_dedup] at hp
      obtain ⟨r, hrl, hrp⟩ := List.mem_map.mp hp
      obtain ⟨hr1, hid⟩ := mem_listFiles.mp hrl
      have := hst1found r hr1 hid
      rw [hrp] at this
      exact List.elem_iff.mpr this)
  have hcalc : reindex st1 indexID now2 calcSums (fun _ => false) (fun _ => false)
      visits = Except.ok (st1, (⟨0, 0, 0⟩ : ReindexStats)) := by
    unfold reindex
    rw [hw2]
    exact congrArg Except.ok hr2
  have hinj2 := Except.ok.inj (hcalc.symm.trans h2)
  have hst : st1 = st2 := congrArg Prod.fst hinj2
  have hss : (⟨0, 0, 0⟩ : ReindexStats) = s2 := congrArg Prod.snd hinj2
  refine ⟨?_, ?_, ?_, hst.symm⟩
  · rw [← hss]
  · rw [← hss]
  · rw [← hss]

def c1Store : Store := { indexes := [⟨"cat", "Cat", "/r"⟩], rows := [], nextId := 1 }

def c1Visits : List WalkItem :=
  [ { path := "/r", relPath := ".", size := 96, modTime := ⟨50, 0⟩, isDir := true,
      readChecksum := none },
    { path := "/r/a.txt", relPath := "a.txt", size := 3, modTime := ⟨40, 7⟩,
      isDir := false, readChecksum := some "ck-a" } ]

/-- The store produced by the first reconcile run of the witness. -/
def c1Store1 : Store :=
  { indexes := [⟨"cat", "Cat", "/r"⟩]
    rows :=
      [ { id := 1, path := "/r", relativePath := ".", size := 96,
          modTime := ⟨50, 0⟩, checksum := "", indexID := "cat", lastScanned := 1,
          isDirectory := true },
        { id := 2, path := "/r/a.txt", relativePath := "a.txt", size := 3,
          modTime := ⟨40, 7⟩, checksum := "ck-a", indexID := "cat",
          lastScanned := 1, isDirectory := false } ]
    nextId := 3 }

/-- A witness for `reindex_idempotent`: a fresh catalog, a root directory and
one file; the first run adds both entries, the second run changes nothing. -/
theorem reindex_idempotent_witness :
    ∃ st2 s2,
      reindex c1Store1 "cat" 2 false (fun _ => false) (fun _ => false) c1Visits =
        Except.ok (st2, s2) ∧
      s2.added = 0 ∧ s2.updated = 0 ∧ s2.removed = 0 ∧ st2 = c1Store1 := by
  obtain ⟨st2, s2, h2⟩ := reindexWalk_noFail_ok "cat" 2 false
    (fun p => lastBy FileEntry.path p (listFiles c1Store1 "cat")) c1Visits c1Store1
    ⟨0, 0, 0⟩
  have h2full : reindex c1Store1 "cat" 2 false (fun _ => false) (fun _ => false)
      c1Visits = Except.ok
        (reindexRemove "cat" (fun _ => false) (c1Visits.map WalkItem.path) st2 s2
          ((listFiles c1Store1 "cat").map FileEntry.path).dedup) := by
    unfold reindex
    rw [h2]
  refine ⟨_, _, h2full, ?_⟩
  exact reindex_idempotent c1Store "cat" 1 2 false c1Visits c1Store1 _ ⟨2, 0, 0⟩ _
    List.Pairwise.nil (by decide) rfl h2full

/-- Embedding of Go `filepath.Base` for slash-separated paths (the walk
callbacks call `filepath.Base(path)`): empty input gives `.`; trailing
slashes are stripped; the last component is returned; an all-slash path
gives `/`. -/
def goBase (p : String) : String :=
  if p = "" then "."
  else
    let cs := (p.toList).reverse.dropWhile (fun c => c = '/')
    if cs = [] then "/"
    else String.mk (cs.takeWhile (fun c => c ≠ '/')).reverse

/-- The hidden test of the walk callbacks (indexer.go:133, 324):
`filepath.Base(path)[0] == '.'`, i.e. the first character of the base name is
the hidden-file marker (`filepath.Base` never returns an empty string). -/
def isHiddenName (s : String) : Bool :=
  match s.toList with
  | [] => false
  | c :: _ => c = '.'

/-- A filesystem object for the walk model: a regular file (with the checksum
a successful `CalculateChecksum` would report, `none` embedding a read
failure) or a directory with its children.  `filepath.Walk` visits children
in lexical name order; the list order stands for that order. -/
inductive FSNode where
  | file (name : String) (size : Int) (modTime : GoTime) (readChecksum : Option String)
  | dir (name : String) (size : Int) (modTime : GoTime) (children : List FSNode)
deriving Repr

/-- The relative path `filepath.Rel(root, path)` yields for a walked object:
the walk joins the accumulated relative path of the parent (empty at the
root) with the entry name. -/
def relJoin (parentRel n : String) : String :=
  if parentRel = "" then n else parentRel ++ "/" ++ n

/-- The visit sequence the filtered walk produces for a forest of siblings
under a directory with path `parentPath` and relative path `parentRel`
(relative to the walk root): pre-order, applying the hidden-name test of the
callback to each entry name — for such entries
`filepath.Base(filepath.Join(dir, name)) = name`, since directory entry
names are non-empty and slash-free — skipping hidden files and pruning
hidden directories together with their entire subtree (`filepath.SkipDir`,
indexer.go:133-138). -/
def walkForest (parentPath parentRel : String) : List FSNode → List WalkItem
  | [] => []
  | FSNode.file n sz mt ck :: rest =>
    (if isHiddenName n then []
     else [{ path := parentPath ++ "/" ++ n, relPath := relJoin parentRel n,
             size := sz, modTime := mt, isDir := false, readChecksum := ck }]) ++
    walkForest parentPath parentRel rest
  | FSNode.dir n sz mt children :: rest =>
    (if isHiddenName n then []
     else { path := parentPath ++ "/" ++ n, relPath := relJoin parentRel n,
            size := sz, modTime := mt, isDir := true,
            readChecksum := none } :: walkForest (parentPath ++ "/" ++ n)
              (relJoin parentRel n) children) ++
    walkForest parentPath parentRel rest

/-- The full visit sequence of `filepath.Walk(rootPath, ...)` with the hidden
filtering of the callbacks: the root itself is visited first (its base name
is `filepath.Base(rootPath)` and its relative path is `.`); if the root's
base name is hidden, the callback returns `SkipDir` (or skips the lone file)
and nothing at all is visited — `filepath.Walk` then returns nil. -/
def walkVisits (rootPath : String) (root : FSNode) : List WalkItem :=
  match root with
  | FSNode.file _ sz mt ck =>
    if isHiddenName (goBase rootPath) then []
    else [{ path := rootPath, relPath := ".", size := sz, modTime := mt,
            isDir := false, readChecksum := ck }]
  | FSNode.dir _ sz mt children =>
    if isHiddenName (goBase rootPath) then []
    else { path := rootPath, relPath := ".", size := sz, modTime := mt,
           isDir := true, readChecksum := none } :: walkForest rootPath "" children

/-- The per-entry body of `Indexer.Index` (indexer.go:127-191): build the
entry — checksum only for files and only when requested, a failed read
leaving the zero value — and upsert it, aborting the whole scan if the
upsert fails. -/
def indexWalk (indexID : String) (now : Nat) (calcSums : Bool)
    (upsertFails : String → Bool) :
    Store → List WalkItem → Except String Store
  | st, [] => Except.ok st
  | st, it :: rest =>
    if upsertFails it.path then Except.error it.path
    else
      indexWalk indexID now calcSums upsertFails
        (st.upsertFile
          { id := 0, path := it.path, relativePath := it.relPath, size := it.size,
            modTime := it.modTime,
            checksum := if !it.isDir && calcSums then it.readChecksum.getD "" else "",
            indexID := indexID, lastScanned := now, isDirectory := it.isDir })
        rest

/-- Embedding of `Indexer.Index` (indexer.go:30-207) over a filesystem tree:
walk the root with hidden filtering and upsert every visited object.  The
progress accounting and the final `UpdateIndexStats` aggregate refresh are
not modelled. -/
def indexTree (st : Store) (indexID : String) (now : Nat) (calcSums : Bool)
    (upsertFails : String → Bool) (rootPath : String) (root : FSNode) :
    Except String Store :=
  indexWalk indexID now calcSums upsertFails st (walkVisits rootPath root)

/-- Embedding of `Indexer.Reindex` (indexer.go:210-424) over a filesystem
tree: reconcile against the walk's visit sequence. -/
def reindexTree (st : Store) (indexID : String) (now : Nat) (calcSums : Bool)
    (upsertFails deleteFails : String → Bool) (rootPath : String) (root : FSNode) :
    Except String (Store × ReindexStats) :=
  reindex st indexID now calcSums upsertFails deleteFails (walkVisits rootPath root)

/-- A walk item is visible in a forest when it is reachable from the forest
through directories whose names are all non-hidden, and its own name is
non-hidden: exactly the objects the filtered walk visits (hidden files are
skipped, hidden directories are pruned with their whole subtree). -/
inductive VisibleIn : String → String → List FSNode → WalkItem → Prop where
  | fileHere {parentPath parentRel : String} {forest : List FSNode}
      {n : String} {sz : Int} {mt : GoTime} {ck : Option String}
      (hmem : FSNode.file n sz mt ck ∈ forest) (hn : isHiddenName n = false) :
      VisibleIn parentPath parentRel forest
        { path := parentPath ++ "/" ++ n, relPath := relJoin parentRel n,
          size := sz, modTime := mt, isDir := false, readChecksum := ck }
  | dirHere {parentPath parentRel : String} {forest : List FSNode}
      {n : String} {sz : Int} {mt : GoTime} {children : List FSNode}
      (hmem : FSNode.dir n sz mt children ∈ forest) (hn : isHiddenName n = false) :
      VisibleIn parentPath parentRel forest
        { path := parentPath ++ "/" ++ n, relPath := relJoin parentRel n,
          size := sz, modTime := mt, isDir := true, readChecksum := none }
  | dirDescend {parentPath parentRel : String} {forest : List FSNode}
      {n : String} {sz : Int} {mt : GoTime} {children : List FSNode} {item : WalkItem}
      (hmem : FSNode.dir n sz mt children ∈ forest) (hn : isHiddenName n = false)
      (hsub : VisibleIn (parentPath ++ "/" ++ n) (relJoin parentRel n) children item) :
      VisibleIn parentPath parentRel forest item

/-- Visibility is preserved when the forest grows by a sibling. -/
theorem VisibleIn.weaken {parentPath parentRel : String} {forest : List FSNode}
    {item : WalkItem} (x : FSNode)
    (h : VisibleIn parentPath parentRel forest item) :
    VisibleIn parentPath parentRel (x :: forest) item := by
  cases h with
  | fileHere hmem hn => exact VisibleIn.fileHere (List.mem_cons_of_mem x hmem) hn
  | dirHere hmem hn => exact VisibleIn.dirHere (List.mem_cons_of_mem x hmem) hn
  | dirDescend hmem hn hsub =>
    exact VisibleIn.dirDescend (List.mem_cons_of_mem x hmem) hn hsub

/-- The walk of a forest contains every item its member nodes contribute. -/
theorem walkForest_mem_of_node {parentPath parentRel : String} :
    ∀ {forest : List FSNode} {node : FSNode}, node ∈ forest →
      ∀ {item : WalkItem}, item ∈ walkForest parentPath parentRel [node] →
      item ∈ walkForest parentPath parentRel forest := by
  intro forest
  induction forest with
  | nil =>
    intro node hmem
    cases hmem
  | cons x rest ih =>
    intro node hmem item hitem
    rcases List.mem_cons.mp hmem with rfl | hmem2
    · cases node with
      | file n sz mt ck =>
        simp only [walkForest, List.append_nil] at hitem
        simp only [walkForest]
        exact List.mem_append_left _ hitem
      | dir n sz mt children =>
        simp only [walkForest, List.append_nil] at hitem
        simp only [walkForest]
        exact List.mem_append_left _ hitem
    · have hrec := ih hmem2 hitem
      cases x with
      | file n sz mt ck =>
        simp only [walkForest]
        exact List.mem_append_right _ hrec
      | dir n sz mt children =>
        simp only [walkForest]
        exact List.mem_append_right _ hrec

/-- The filtered walk of a forest visits exactly the visible items. -/
theorem walkForest_mem_iff (parentPath parentRel : String) (forest : List FSNode)
    (item : WalkItem) :
    item ∈ walkForest parentPath parentRel forest ↔
      VisibleIn parentPath parentRel forest item := by
  constructor
  · intro h
    induction parentPath, parentRel, forest using walkForest.induct with
    | case1 pp rel =>
      simp only [walkForest] at h
      cases h
    | case2 pp rel n sz mt ck rest ih =>
      simp only [walkForest] at h
      rcases List.mem_append.mp h with hl | hr
      · by_cases hn : isHiddenName n
        · rw [if_pos hn] at hl
          cases hl
        · rw [if_neg hn, List.mem_singleton] at hl
          rw [hl]
          exact VisibleIn.fileHere (List.mem_cons_self _ _) (Bool.eq_false_iff.mpr hn)
      · exact (ih hr).weaken _
    | case3 pp rel n sz mt children rest ihc ih =>
      simp only [walkForest] at h
      rcases List.mem_append.mp h with hl | hr
      · by_cases hn : isHiddenName n
        · rw [if_pos hn] at hl
          cases hl
        · rw [if_neg hn] at hl
          rcases List.mem_cons.mp hl with rfl | hsub
          · exact VisibleIn.dirHere (List.mem_cons_self _ _) (Bool.eq_false_iff.mpr hn)
          · exact VisibleIn.dirDescend (List.mem_cons_self _ _)
              (Bool.eq_false_iff.mpr hn) (ihc hsub)
      · exact (ih hr).weaken _
  · intro h
    induction h with
    | fileHere hmem hn =>
      refine walkForest_mem_of_node hmem ?_
      simp [walkForest, hn]
    | dirHere hmem hn =>
      refine walkForest_mem_of_node hmem ?_
      simp [walkForest, hn]
    | dirDescend hmem hn hsub ih =>
      refine walkForest_mem_of_node hmem ?_
      simp only [walkForest, hn, Bool.false_eq_true, if_false, List.append_nil]
      exact List.mem_cons_of_mem _ ih

/-- The absolute path obtained by joining a chain of entry names under a
base path. -/
def chainPath (base : String) : List String → String
  | [] => base
  | c :: cs => chainPath (base ++ "/" ++ c) cs

/-- Every visible item's path decomposes as the base path extended by a
non-empty chain of non-hidden names. -/
theorem visibleIn_chain {parentPath parentRel : String} {forest : List FSNode}
    {item : WalkItem} (h : VisibleIn parentPath parentRel forest item) :
    ∃ chain : List String, chain ≠ [] ∧
      (∀ c ∈ chain, isHiddenName c = false) ∧
      item.path = chainPath parentPath chain := by
  induction h with
  | fileHere hmem hn =>
    refine ⟨[_], by simp, ?_, rfl⟩
    intro c hc
    rw [List.mem_singleton] at hc
    rw [hc]
    exact hn
  | dirHere hmem hn =>
    refine ⟨[_], by simp, ?_, rfl⟩
    intro c hc
    rw [List.mem_singleton] at hc
    rw [hc]
    exact hn
  | dirDescend hmem hn hsub ih =>
    obtain ⟨chain, hne, hall, hpath⟩ := ih
    refine ⟨_ :: chain, by simp, ?_, hpath⟩
    intro c hc
    rcases List.mem_cons.mp hc with rfl | hc2
    · exact hn
    · exact hall c hc2

/-- Any row present after the scan's walk was present before or has a walked
path with the scanned catalog's identifier. -/
theorem indexWalk_mem_src (indexID : String) (now : Nat) (calcSums : Bool)
    (upsertFails : String → Bool) :
    ∀ (visits : List WalkItem) (st st2 : Store),
      indexWalk indexID now calcSums upsertFails st visits = Except.ok st2 →
      ∀ r ∈ st2.rows, r ∈ st.rows ∨
        (r.path ∈ visits.map WalkItem.path ∧ r.indexID = indexID) := by
  intro visits
  induction visits with
  | nil =>
    intro st st2 h r hr
    simp only [indexWalk] at h
    rw [← Except.ok.inj h] at hr
    exact Or.inl hr
  | cons it rest ih =>
    intro st st2 h r hr
    simp only [indexWalk] at h
    by_cases hf : upsertFails it.path
    · rw [if_pos hf] at h
      exact absurd h (by simp)
    · rw [if_neg hf] at h
      rcases ih _ _ h r hr with hin | hin
      · rcases upsertFile_mem_src hin with hin2 | hin2
        · exact Or.inl hin2
        · right
          exact ⟨by simp [hin2.1], hin2.2⟩
      · right
        exact ⟨by simp [hin.1], hin.2⟩

/-- Presence of a key survives any upsert. -/
theorem upsertFile_key_persists {st : Store} {p i : String}
    (h : ∃ r ∈ st.rows, r.path = p ∧ r.indexID = i) (f : FileEntry) :
    ∃ r ∈ (st.upsertFile f).rows, r.path = p ∧ r.indexID = i := by
  obtain ⟨r, hr, hp, hi⟩ := h
  by_cases hk : r.path = f.path ∧ r.indexID = f.indexID
  · obtain ⟨e, he, hep, hei⟩ := upsertFile_key_mem st f
    exact ⟨e, he, hep.trans (hk.1 ▸ hp), hei.trans (hk.2 ▸ hi)⟩
  · exact ⟨r, (upsertFile_mem_other hk).mpr hr, hp, hi⟩

/-- A fresh catalog lists no files. -/
theorem listFiles_fresh {st : Store} {indexID : String}
    (hfresh : ∀ r ∈ st.rows, r.indexID ≠ indexID) :
    listFiles st indexID = [] := by
  unfold listFiles
  have : st.rows.filter (fun r => r.indexID == indexID) = [] := by
    rw [List.filter_eq_nil_iff]
    intro r hr
    simp [hfresh r hr]
  rw [this]
  rfl

/-- Presence of a key survives the whole scan walk. -/
theorem indexWalk_key_persists (indexID : String) (now : Nat) (calcSums : Bool)
    (upsertFails : String → Bool) (p i : String) :
    ∀ (visits : List WalkItem) (st st2 : Store),
      indexWalk indexID now calcSums upsertFails st visits = Except.ok st2 →
      (∃ r ∈ st.rows, r.path = p ∧ r.indexID = i) →
      ∃ r ∈ st2.rows, r.path = p ∧ r.indexID = i := by
  intro visits
  induction visits with
  | nil =>
    intro st st2 h hkey
    simp only [indexWalk] at h
    rw [← Except.ok.inj h]
    exact hkey
  | cons it rest ih =>
    intro st st2 h hkey
    simp only [indexWalk] at h
    by_cases hf : upsertFails it.path
    · rw [if_pos hf] at h
      exact absurd h (by simp)
    · rw [if_neg hf] at h
      exact ih _ _ h (upsertFile_key_persists hkey _)

/-- Presence of a key survives the whole reconcile walk. -/
theorem reindexWalk_key_persists (indexID : String) (now : Nat) (calcSums : Bool)
    (upsertFails : String → Bool) (lookup : String → Option FileEntry) (p i : String) :
    ∀ (visits : List WalkItem) (st : Store) (s : ReindexStats) (st2 : Store)
      (s2 : ReindexStats),
      reindexWalk indexID now calcSums upsertFails lookup st s visits =
        Except.ok (st2, s2) →
      (∃ r ∈ st.rows, r.path = p ∧ r.indexID = i) →
      ∃ r ∈ st2.rows, r.path = p ∧ r.indexID = i := by
  intro visits
  induction visits with
  | nil =>
    intro st s st2 s2 h hkey
    simp only [reindexWalk] at h
    have hst : st = st2 := congrArg Prod.fst (Except.ok.inj h)
    rw [← hst]
    exact hkey
  | cons it rest ih =>
    intro st s st2 s2 h hkey
    simp only [reindexWalk] at h
    by_cases hn : needsUpdate (lookup it.path) it
    · rw [if_pos hn] at h
      by_cases hf : upsertFails it.path
      · rw [if_pos hf] at h
        exact absurd h (by simp)
      · rw [if_neg hf] at h
        exact ih _ _ _ _ h (upsertFile_key_persists hkey _)
    · rw [if_neg hn] at h
      exact ih _ _ _ _ h hkey

/-- After a successful scan walk every visited path has a row of the
catalog. -/
theorem indexWalk_visits_present (indexID : String) (now : Nat) (calcSums : Bool)
    (upsertFails : String → Bool) :
    ∀ (visits : List WalkItem) (st st2 : Store),
      indexWalk indexID now calcSums upsertFails st visits = Except.ok st2 →
      ∀ it ∈ visits, ∃ r ∈ st2.rows, r.path = it.path ∧ r.indexID = indexID := by
  intro visits
  induction visits with
  | nil =>
    intro st st2 h it hit
    cases hit
  | cons it0 rest ih =>
    intro st st2 h it hit
    simp only [indexWalk] at h
    by_cases hf : upsertFails it0.path
    · rw [if_pos hf] at h
      exact absurd h (by simp)
    · rw [if_neg hf] at h
      rcases List.mem_cons.mp hit with rfl | hit2
      · exact indexWalk_key_persists indexID now calcSums upsertFails it.path indexID
          rest _ _ h (upsertFile_key_mem st _)
      · exact ih _ _ h it hit2

/-- After a successful reconcile walk against an existing-entry lookup that
never hits (a fresh catalog), every visited path has a row of the catalog. -/
theorem reindexWalk_visits_present (indexID : String) (now : Nat) (calcSums : Bool)
    (lookup : String → Option FileEntry) (hlook : ∀ p, lookup p = none) :
    ∀ (visits : List WalkItem) (st : Store) (s : ReindexStats) (st2 : Store)
      (s2 : ReindexStats),
      reindexWalk indexID now calcSums (fun _ => false) lookup st s visits =
        Except.ok (st2, s2) →
      ∀ it ∈ visits, ∃ r ∈ st2.rows, r.path = it.path ∧ r.indexID = indexID := by
  intro visits
  induction visits with
  | nil =>
    intro st s st2 s2 h it hit
    cases hit
  | cons it0 rest ih =>
    intro st s st2 s2 h it hit
    simp only [reindexWalk] at h
    have hn : needsUpdate (lookup it0.path) it0 = true := by
      rw [hlook it0.path]
      rfl
    rw [hn, if_pos rfl, if_neg (by simp)] at h
    rcases List.mem_cons.mp hit with rfl | hit2
    · exact reindexWalk_key_persists indexID now calcSums (fun _ => false) lookup
        it.path indexID rest _ _ _ _ h (upsertFile_key_mem st _)
    · exact ih _ _ _ _ h it hit2

/-- C7: hidden-object exclusion.  The filtered walk visits exactly the items
reachable through non-hidden names (hidden files skipped, hidden directories
pruned with their whole subtree, non-hidden siblings still visited) —
conjunct one.  Consequently, scanning a fresh catalog whose root name is not
hidden stores only the root and objects whose path is a chain of non-hidden
names under the root (conjunct two), and stores every visited object
(conjunct three); reconciling the same fresh catalog does the same
(conjuncts four and five). -/
theorem hidden_exclusion (rootPath : String) (root : FSNode) (st0 st1 st1r : Store)
    (indexID : String) (now nowr : Nat) (calcSums : Bool) (sr : ReindexStats)
    (hroot : isHiddenName (goBase rootPath) = false)
    (hfresh : ∀ r ∈ st0.rows, r.indexID ≠ indexID)
    (h1 : indexTree st0 indexID now calcSums (fun _ => false) rootPath root =
      Except.ok st1)
    (h2 : reindexTree st0 indexID nowr calcSums (fun _ => false) (fun _ => false)
      rootPath root = Except.ok (st1r, sr)) :
    (∀ (parentPath parentRel : String) (forest : List FSNode) (item : WalkItem),
        item ∈ walkForest parentPath parentRel forest ↔
          VisibleIn parentPath parentRel forest item) ∧
    (∀ r ∈ st1.rows, r.indexID = indexID →
        r.path = rootPath ∨
        ∃ chain : List String, chain ≠ [] ∧ (∀ c ∈ chain, isHiddenName c = false) ∧
          r.path = chainPath rootPath chain) ∧
    (∀ it ∈ walkVisits rootPath root,
        ∃ r ∈ st1.rows, r.path = it.path ∧ r.indexID = indexID) ∧
    (∀ r ∈ st1r.rows, r.indexID = indexID →
        r.path = rootPath ∨
        ∃ chain : List String, chain ≠ [] ∧ (∀ c ∈ chain, isHiddenName c = false) ∧
          r.path = chainPath rootPath chain) ∧
    (∀ it ∈ walkVisits rootPath root,
        ∃ r ∈ st1r.rows, r.path = it.path ∧ r.indexID = indexID) := by
  have hvis : ∀ item ∈ walkVisits rootPath root,
      item.path = rootPath ∨
      ∃ chain : List String, chain ≠ [] ∧ (∀ c ∈ chain, isHiddenName c = false) ∧
        item.path = chainPath rootPath chain := by
    intro item hitem
    cases root with
    | file n sz mt ck =>
      simp only [walkVisits, hroot, Bool.false_eq_true, if_false,
        List.mem_singleton] at hitem
      left
      rw [hitem]
    | dir n sz mt children =>
      simp only [walkVisits, hroot, Bool.false_eq_true, if_false,
        List.mem_cons] at hitem
      rcases hitem with rfl | hsub
      · left
        rfl
      · right
        exact visibleIn_chain ((walkForest_mem_iff rootPath "" children item).mp hsub)
  have hlistnil : listFiles st0 indexID = [] := listFiles_fresh hfresh
  have hlook : ∀ p, lastBy FileEntry.path p (listFiles st0 indexID) = none := by
    intro p
    rw [hlistnil]
    rfl
  -- unpack the reconcile run
  obtain ⟨stw, sw, hw⟩ := reindexWalk_noFail_ok indexID nowr calcSums
    (fun p => lastBy FileEntry.path p (listFiles st0 indexID))
    (walkVisits rootPath root) st0 ⟨0, 0, 0⟩
  have h2x : st1r = (reindexRemove indexID (fun _ => false)
      ((walkVisits rootPath root).map WalkItem.path) stw sw
      ((listFiles st0 indexID).map FileEntry.path).dedup).1 := by
    unfold reindexTree reindex at h2
    rw [hw] at h2
    exact (congrArg Prod.fst (Except.ok.inj h2)).symm
  obtain ⟨hmemr, -, -, -⟩ := reindexRemove_spec indexID (fun _ => false)
    ((walkVisits rootPath root).map WalkItem.path) 
    ((listFiles st0 indexID).map FileEntry.path).dedup stw sw
  have hsub1r : ∀ r ∈ st1r.rows, r ∈ stw.rows := by
    intro r hr
    rw [h2x] at hr
    exact ((hmemr r).mp hr).1
  refine ⟨fun pp rel forest item => walkForest_mem_iff pp rel forest item,
    ?_, ?_, ?_, ?_⟩
  · intro r hr hid
    rcases indexWalk_mem_src indexID now calcSums (fun _ => false)
        (walkVisits rootPath root) st0 st1 h1 r hr with h0 | hfound
    · exact absurd hid (hfresh r h0)
    · obtain ⟨it, hitv, hitp⟩ := List.mem_map.mp hfound.1
      rw [← hitp]
      exact hvis it hitv
  · intro it hit
    exact indexWalk_visits_present indexID now calcSums (fun _ => false)
      (walkVisits rootPath root) st0 st1 h1 it hit
  · intro r hr hid
    have hrw : r ∈ stw.rows := hsub1r r hr
    rcases reindexWalk_mem_src indexID nowr calcSums (fun _ => false) _
        (walkVisits rootPath root) st0 ⟨0, 0, 0⟩ stw sw hw r hrw with h0 | hfound
    · exact absurd hid (hfresh r h0)
    · obtain ⟨it, hitv, hitp⟩ := List.mem_map.mp hfound.1
      rw [← hitp]
      exact hvis it hitv
  · intro it hit
    obtain ⟨r, hrw, hrp, hri⟩ := reindexWalk_visits_present indexID nowr calcSums
      (fun p => lastBy FileEntry.path p (listFiles st0 indexID)) hlook
      (walkVisits rootPath root) st0 ⟨0, 0, 0⟩ stw sw hw it hit
    refine ⟨r, ?_, hrp, hri⟩
    rw [h2x, hmemr r]
    refine ⟨hrw, ?_⟩
    rintro ⟨-, hpaths, -, -⟩
    rw [hlistnil] at hpaths
    cases hpaths

def c7Root : FSNode := FSNode.dir "r" 96 ⟨5, 0⟩
  [ FSNode.file ".hidden" 1 ⟨1, 0⟩ none,
    FSNode.dir ".git" 2 ⟨2, 0⟩ [FSNode.file "cfg" 3 ⟨3, 0⟩ none],
    FSNode.file "ok.txt" 4 ⟨4, 0⟩ (some "ck") ]

def c7Store : Store := { indexes := [⟨"cat", "Cat", "/r"⟩], rows := [], nextId := 1 }

/-- The visit sequence of the witness tree: the hidden file, the hidden
directory and its contents are all absent; the root and the normal sibling
remain. -/
theorem c7_visits_eval : walkVisits "/r" c7Root =
    [ { path := "/r", relPath := ".", size := 96, modTime := ⟨5, 0⟩, isDir := true,
        readChecksum := none },
      { path := "/r/ok.txt", relPath := "ok.txt", size := 4, modTime := ⟨4, 0⟩,
        isDir := false, readChecksum := some "ck" } ] := by
  simp [walkVisits, walkForest, isHiddenName, goBase, relJoin, c7Root]

def c7Store1 : Store :=
  { indexes := [⟨"cat", "Cat", "/r"⟩]
    rows :=
      [ { id := 1, path := "/r", relativePath := ".", size := 96,
          modTime := ⟨5, 0⟩, checksum := "", indexID := "cat", lastScanned := 1,
          isDirectory := true },
        { id := 2, path := "/r/ok.txt", relativePath := "ok.txt", size := 4,
          modTime := ⟨4, 0⟩, checksum := "", indexID := "cat", lastScanned := 1,
          isDirectory := false } ]
    nextId := 3 }

def c7Store1r : Store :=
  { indexes := [⟨"cat", "Cat", "/r"⟩]
    rows :=
      [ { id := 1, path := "/r", relativePath := ".", size := 96,
          modTime := ⟨5, 0⟩, checksum := "", indexID := "cat", lastScanned := 1,
          isDirectory := true },
        { id := 2, path := "/r/ok.txt", relativePath := "ok.txt", size := 4,
          modTime := ⟨4, 0⟩, checksum := "ck", indexID := "cat", lastScanned := 1,
          isDirectory := false } ]
    nextId := 3 }

/-- A witness for `hidden_exclusion`: after scanning the witness tree, the
normally-named sibling is stored and every stored path of the catalog is the
root or a chain of non-hidden names. -/
theorem hidden_exclusion_witness :
    (∃ r ∈ c7Store1.rows, r.path = "/r/ok.txt" ∧ r.indexID = "cat") ∧
    (∀ r ∈ c7Store1.rows, r.indexID = "cat" →
        r.path = "/r" ∨
        ∃ chain : List String, chain ≠ [] ∧ (∀ c ∈ chain, isHiddenName c = false) ∧
          r.path = chainPath "/r" chain) := by
  have h1eq : indexTree c7Store "cat" 1 false (fun _ => false) "/r" c7Root =
      indexWalk "cat" 1 false (fun _ => false) c7Store
        [ { path := "/r", relPath := ".", size := 96, modTime := ⟨5, 0⟩,
            isDir := true, readChecksum := none },
          { path := "/r/ok.txt", relPath := "ok.txt", size := 4, modTime := ⟨4, 0⟩,
            isDir := false, readChecksum := some "ck" } ] := by
    unfold indexTree
    rw [c7_visits_eval]
  have h1 : indexTree c7Store "cat" 1 false (fun _ => false) "/r" c7Root =
      Except.ok c7Store1 := by
    rw [h1eq]
    rfl
  have h2eq : reindexTree c7Store "cat" 1 false (fun _ => false) (fun _ => false)
      "/r" c7Root =
      reindex c7Store "cat" 1 false (fun _ => false) (fun _ => false)
        [ { path := "/r", relPath := ".", size := 96, modTime := ⟨5, 0⟩,
            isDir := true, readChecksum := none },
          { path := "/r/ok.txt", relPath := "ok.txt", size := 4, modTime := ⟨4, 0⟩,
            isDir := false, readChecksum := some "ck" } ] := by
    unfold reindexTree
    rw [c7_visits_eval]
  have h2 : reindexTree c7Store "cat" 1 false (fun _ => false) (fun _ => false)
      "/r" c7Root = Except.ok (c7Store1r, ⟨2, 0, 0⟩) := by
    rw [h2eq]
    rfl
  have hmain := hidden_exclusion "/r" c7Root c7Store c7Store1 c7Store1r "cat" 1 1
    false ⟨2, 0, 0⟩ (by decide) (by intro r hr; cases hr) h1 h2
  constructor
  · obtain ⟨r, hr, hrp, hri⟩ := hmain.2.2.1
      { path := "/r/ok.txt", relPath := "ok.txt", size := 4, modTime := ⟨4, 0⟩,
        isDir := false, readChecksum := some "ck" }
      (by rw [c7_visits_eval]; exact List.mem_cons_of_mem _ (List.mem_cons_self _ _))
    exact ⟨r, hr, hrp, hri⟩
  · exact hmain.2.1

/-- Under the `UNIQUE(path, index_id)` constraint a catalog's listing has
pairwise distinct paths. -/
theorem listFiles_paths_nodup {st : Store} (hWF : st.WF) (indexID : String) :
    ((listFiles st indexID).map FileEntry.path).Nodup := by
  have hfil : (st.rows.filter (fun r => r.indexID == indexID)).Pairwise
      (fun a b => a.path ≠ b.path) := by
    refine List.Pairwise.imp_of_mem ?_ (hWF.sublist (List.filter_sublist _))
    intro a b ha hb hab
    have hai : a.indexID = indexID := by simpa using (List.mem_filter.mp ha).2
    have hbi : b.indexID = indexID := by simpa using (List.mem_filter.mp hb).2
    rcases hab with h | h
    · exact h
    · exact absurd (hai.trans hbi.symm) h
  have hsorted : (listFiles st indexID).Pairwise (fun a b => a.path ≠ b.path) := by
    refine ((sortByPath_perm _).pairwise_iff ?_).mpr hfil
    intro a b h
    exact fun he => h he.symm
  have hmap : (List.map FileEntry.path (listFiles st indexID)).Pairwise
      (fun a b => a ≠ b) := by
    rw [List.pairwise_map]
    exact hsorted
  exact hmap

/-- C10: the hidden-name exclusion applies to the root itself.  When the
final component of the root path begins with the hidden marker, the walk
callback fires on the root and returns `SkipDir` (or skips the lone file), so
the walk visits nothing: `Index` returns success with the store untouched,
and `Reindex` (with the store honouring the UNIQUE constraint and no store
failures) returns success with `added = 0`, `updated = 0`, every previously
stored entry of the catalog classified removed — `removed` equals the number
of stored entries, none of which remain — and entries of other catalogs
untouched. -/
theorem hidden_root (rootPath : String) (root : FSNode) (st : Store)
    (indexID : String) (now1 now2 : Nat) (calcSums : Bool)
    (hroot : isHiddenName (goBase rootPath) = true) (hWF : st.WF) :
    walkVisits rootPath root = [] ∧
    indexTree st indexID now1 calcSums (fun _ => false) rootPath root =
      Except.ok st ∧
    ∃ st2 s2,
      reindexTree st indexID now2 calcSums (fun _ => false) (fun _ => false)
        rootPath root = Except.ok (st2, s2) ∧
      s2.added = 0 ∧ s2.updated = 0 ∧
      s2.removed = (listFiles st indexID).length ∧
      (∀ r ∈ st2.rows, r.indexID ≠ indexID) ∧
      (∀ r ∈ st.rows, r.indexID ≠ indexID → r ∈ st2.rows) := by
  have hvnil : walkVisits rootPath root = [] := by
    cases root with
    | file n sz mt ck => simp [walkVisits, hroot]
    | dir n sz mt children => simp [walkVisits, hroot]
  refine ⟨hvnil, ?_, ?_⟩
  · unfold indexTree
    rw [hvnil]
    rfl
  · have h2eq : reindexTree st indexID now2 calcSums (fun _ => false) (fun _ => false)
        rootPath root =
        reindex st indexID now2 calcSums (fun _ => false) (fun _ => false) [] := by
      unfold reindexTree
      rw [hvnil]
    obtain ⟨hmem, hrem, hadd, hupd⟩ := reindexRemove_spec indexID (fun _ => false)
      (([] : List WalkItem).map WalkItem.path)
      ((listFiles st indexID).map FileEntry.path).dedup st ⟨0, 0, 0⟩
    refine ⟨(reindexRemove indexID (fun _ => false) (([] : List WalkItem).map WalkItem.path)
        st ⟨0, 0, 0⟩ ((listFiles st indexID).map FileEntry.path).dedup).1,
      (reindexRemove indexID (fun _ => false) (([] : List WalkItem).map WalkItem.path)
        st ⟨0, 0, 0⟩ ((listFiles st indexID).map FileEntry.path).dedup).2,
      ?_, ?_, ?_, ?_, ?_, ?_⟩
    · rw [h2eq]
      unfold reindex
      rfl
    · rw [hadd]
    · rw [hupd]
    · rw [hrem]
      have hnd := listFiles_paths_nodup hWF indexID
      have hded : ((listFiles st indexID).map FileEntry.path).dedup =
          (listFiles st indexID).map FileEntry.path := List.dedup_eq_self.mpr hnd
      rw [hded]
      have hfil : ((listFiles st indexID).map FileEntry.path).filter
          (fun p => !((List.map WalkItem.path ([] : List WalkItem)).contains p) && !false) =
          (listFiles st indexID).map FileEntry.path := by
        rw [List.filter_eq_self]
        intro p _
        rfl
      rw [hfil]
      simp [List.length_map]
    · intro r hr hid
      rw [hmem r] at hr
      obtain ⟨hrs, hnc⟩ := hr
      apply hnc
      refine ⟨hid, ?_, ?_, rfl⟩
      · rw [List.dedup_eq_self.mpr (listFiles_paths_nodup hWF indexID)]
        exact List.mem_map_of_mem FileEntry.path (mem_listFiles.mpr ⟨hrs, hid⟩)
      · intro hmem2
        cases hmem2
    · intro r hr hid
      rw [hmem r]
      refine ⟨hr, ?_⟩
      rintro ⟨h1, -, -, -⟩
      exact hid h1

def c10Root : FSNode := FSNode.dir ".data" 96 ⟨9, 0⟩
  [ FSNode.file "a.txt" 4 ⟨4, 0⟩ (some "ck") ]

def c10Store : Store :=
  { indexes := [⟨"cat", "Cat", "/x/.data"⟩, ⟨"other", "Other", "/y"⟩]
    rows :=
      [ { id := 1, path := "/x/.data/a.txt", relativePath := "a.txt", size := 4,
          modTime := ⟨4, 0⟩, checksum := "ck", indexID := "cat", lastScanned := 0,
          isDirectory := false },
        { id := 2, path := "/y/b.txt", relativePath := "b.txt", size := 5,
          modTime := ⟨5, 0⟩, checksum := "", indexID := "other", lastScanned := 0,
          isDirectory := false } ]
    nextId := 3 }

/-- A witness for `hidden_root`: a root directory named `.data` — the scan
walks nothing and succeeds, and the reconcile removes the catalog's one
stored entry while leaving the other catalog's entry alone. -/
theorem hidden_root_witness :
    walkVisits "/x/.data" c10Root = [] ∧
    indexTree c10Store "cat" 1 false (fun _ => false) "/x/.data" c10Root =
      Except.ok c10Store ∧
    ∃ st2 s2,
      reindexTree c10Store "cat" 2 false (fun _ => false) (fun _ => false)
        "/x/.data" c10Root = Except.ok (st2, s2) ∧
      s2.added = 0 ∧ s2.updated = 0 ∧
      s2.removed = (listFiles c10Store "cat").length ∧
      (∀ r ∈ st2.rows, r.indexID ≠ "cat") ∧
      (∀ r ∈ c10Store.rows, r.indexID ≠ "cat" → r ∈ st2.rows) := by
  have hWF : c10Store.WF := by
    unfold Store.WF
    decide
  exact hidden_root "/x/.data" c10Root c10Store "cat" 1 2 false (by decide) hWF
